import Mathlib

/-!
Verification development for the subsetix mesh-intersection library.

The definitions below are a shallow embedding of the C++ sources:

* `src/include/subsetix/mesh.hpp` — `Coord`, `Interval`, `RowKey`, `Mesh3D`;
* `src/include/subsetix/detail/utils.hpp` — `find_row_by_yz`,
  `extract_row_ranges`;
* `src/include/subsetix/intersection.hpp` — `detail::row_intersection_impl`,
  `intersect_meshes`, `mesh_to`.

Kokkos views are modelled by Lean lists holding their logical contents;
machine integers `Coord = int32_t` are modelled by `Int` (the merge loop
performs only comparisons and assignments, never arithmetic, so signed
32-bit values behave exactly like the corresponding mathematical integers);
`std::size_t` indices are modelled by `Nat`.  Parallel `map / scan / compact`
kernels are modelled by the sequential functions they compute: a
`parallel_for` over an index range with a flag array, an exclusive
`parallel_scan`, and a scatter to the scanned positions together compute a
stable `filterMap`; a `parallel_scan` writing every prefix is `List.scanl`.
Kokkos views allocated with a label are zero-initialised, which the model
reflects wherever the code may leave an entry unwritten.
-/

namespace Subsetix

/-- Half-open interval `[lo, hi)` on the X axis (`struct Interval` in
`mesh.hpp`; the C++ members `begin` / `end` are Lean keywords, hence
`lo` / `hi`).  The member type `Coord = int32_t` is modelled as `Int`; see
the header comment for why this is exact here.  Both members are
zero-initialised in C++. -/
structure Interval where
  lo : Int := 0
  hi : Int := 0
deriving DecidableEq, Repr

/-- Row key `(y, z)` (`struct RowKey` in `mesh.hpp`). -/
structure RowKey where
  y : Int := 0
  z : Int := 0
deriving DecidableEq, Repr

/-- `RowKey::operator<` from `mesh.hpp`: lexicographic, y-major. -/
def rowKeyLtB (a b : RowKey) : Bool :=
  if a.y ≠ b.y then a.y < b.y else a.z < b.z

/-- CSR mesh (`Mesh3D` in `mesh.hpp`): three parallel arrays.  The lists hold
the logical contents: `rowKeys` of length `num_rows`, `rowPtr` of length
`num_rows + 1`, `intervals` of length `num_intervals` (physical capacity
beyond the logical size is not represented). -/
structure Mesh where
  rowKeys : List RowKey
  rowPtr : List Nat
  intervals : List Interval
deriving DecidableEq, Repr

/-- Logical `num_rows` of a mesh. -/
def Mesh.numRows (m : Mesh) : Nat := m.rowKeys.length

/-- Logical `num_intervals` of a mesh. -/
def Mesh.numIntervals (m : Mesh) : Nat := m.intervals.length

/-- The empty mesh: `num_rows = num_intervals = 0` (default-constructed
`Mesh3DDevice{}`).  Its logical `row_ptr` content is the trivial CSR
sentinel `[0]`. -/
def Mesh.empty : Mesh := ⟨[], [0], []⟩

/-- Intersection begin: `(a.begin > b.begin) ? a.begin : b.begin`
(`row_intersection_impl`, `intersection.hpp`). -/
def interBegin (a b : Interval) : Int :=
  if a.lo > b.lo then a.lo else b.lo

/-- Intersection end: `(a.end < b.end) ? a.end : b.end`. -/
def interEnd (a b : Interval) : Int :=
  if a.hi < b.hi then a.hi else b.hi

/-- The candidate intersection interval `[max(begin), min(end))` of one merge
step. -/
def interOf (a b : Interval) : Interval := ⟨interBegin a b, interEnd a b⟩

/-- One-loop body of `detail::row_intersection_impl` with `CountOnly =
false` (EMIT mode), `intersection.hpp` lines 62–104.  The C++ two-pointer
while loop over index ranges `[begin_a, end_a)` and `[begin_b, end_b)` of
two interval views becomes recursion over the corresponding sub-lists;
writing at `out_offset + count` and incrementing `count` becomes consing
the emitted interval in front of the rest of the output.  The first
argument is fuel bounding the number of remaining loop iterations (the
loop variant `(end_a - ia) + (end_b - ib)`); it exists only to make the
recursion structural and never runs out when initialised with the variant,
as `emitFuel_congr` below proves. -/
def rowIntersectionEmitFuel : Nat → List Interval → List Interval → List Interval
  | fuel + 1, a :: as, b :: bs =>
    let s := interBegin a b
    let e := interEnd a b
    let rest :=
      if a.hi < b.hi then rowIntersectionEmitFuel fuel as (b :: bs)
      else if b.hi < a.hi then rowIntersectionEmitFuel fuel (a :: as) bs
      else rowIntersectionEmitFuel fuel as bs
    if s < e then ⟨s, e⟩ :: rest else rest
  | _, _, [] => []
  | _, [], _ => []
  | 0, _ :: _, _ :: _ => []

/-- `detail::row_intersection_impl` with `CountOnly = false`: the merge
started with its loop variant as fuel. -/
def rowIntersectionEmit (as bs : List Interval) : List Interval :=
  rowIntersectionEmitFuel (as.length + bs.length) as bs

/-- `detail::row_intersection_impl` with `CountOnly = true` (COUNT mode):
the same traversal, counting instead of writing (fuel as in
`rowIntersectionEmitFuel`). -/
def rowIntersectionCountFuel : Nat → List Interval → List Interval → Nat
  | fuel + 1, a :: as, b :: bs =>
    let s := interBegin a b
    let e := interEnd a b
    let rest :=
      if a.hi < b.hi then rowIntersectionCountFuel fuel as (b :: bs)
      else if b.hi < a.hi then rowIntersectionCountFuel fuel (a :: as) bs
      else rowIntersectionCountFuel fuel as bs
    if s < e then rest + 1 else rest
  | _, _, [] => 0
  | _, [], _ => 0
  | 0, _ :: _, _ :: _ => 0

/-- `detail::row_intersection_impl` with `CountOnly = true`. -/
def rowIntersectionCount (as bs : List Interval) : Nat :=
  rowIntersectionCountFuel (as.length + bs.length) as bs

/-- The `lo`/`hi` bisection loop of `detail::find_row_by_yz`
(`detail/utils.hpp` lines 96–105).  The loop condition `key.y < y ||
(key.y == y && key.z < z)` is exactly `rowKeyLtB key ⟨y, z⟩`.  The fuel
argument bounds the remaining iterations by the loop variant `hi - lo`,
which shrinks by at least one per iteration. -/
def lowerBoundFuel (rows : List RowKey) (k : RowKey) : Nat → Nat → Nat → Nat
  | fuel + 1, lo, hi =>
    if lo < hi then
      let mid := lo + (hi - lo) / 2
      let key := rows.getD mid ⟨0, 0⟩
      if rowKeyLtB key k then lowerBoundFuel rows k fuel (mid + 1) hi
      else lowerBoundFuel rows k fuel lo mid
    else lo
  | 0, lo, _ => lo

/-- The bisection loop started with its loop variant as fuel. -/
def lowerBound (rows : List RowKey) (k : RowKey) (lo hi : Nat) : Nat :=
  lowerBoundFuel rows k (hi - lo) lo hi

/-- `detail::find_row_by_yz` (`detail/utils.hpp`): binary search for `(y,z)`
in a sorted row-key view, returning the index or `-1`. -/
def findRowByYZ (rows : List RowKey) (n : Nat) (y z : Int) : Int :=
  let lo := lowerBound rows ⟨y, z⟩ 0 n
  if lo < n then
    let key := rows.getD lo ⟨0, 0⟩
    if key.y = y ∧ key.z = z then (lo : Int) else -1
  else -1

/-- Interval sub-range of row `i` of a CSR: the slice
`intervals[row_ptr[i] .. row_ptr[i+1])` read through
`detail::extract_row_ranges`. -/
def rowSlice (intervals : List Interval) (p : List Nat) (i : Nat) : List Interval :=
  (intervals.take (p.getD (i + 1) 0)).drop (p.getD i 0)

/-- Row-mapping kernel `intersection_row_map` together with the scan
`intersection_row_scan` and scatter `intersection_row_compact`
(`intersect_meshes` steps 1–4): for each driving-side index `i` (the second
argument accumulates it) binary-search the larger side; matched rows are
compacted, in driving order, to triples `(row key, index into A, index into
B)`, with A/B roles restored via `small_is_a`. -/
def rowMapAux (big : List RowKey) (nBig : Nat) (smallIsA : Bool) :
    List RowKey → Nat → List (RowKey × Nat × Nat)
  | [], _ => []
  | k :: rest, i =>
    let idxBig := findRowByYZ big nBig k.y k.z
    if 0 ≤ idxBig then
      (k, if smallIsA then (i, idxBig.toNat) else (idxBig.toNat, i)) ::
        rowMapAux big nBig smallIsA rest (i + 1)
    else rowMapAux big nBig smallIsA rest (i + 1)

/-- The row-mapping phase of `intersect_meshes` (lines 163–252): the smaller
row set drives the loop, searching the larger one. -/
def rowMap (A B : Mesh) : List (RowKey × Nat × Nat) :=
  let smallIsA := A.numRows ≤ B.numRows
  let rowsSmall := if smallIsA then A.rowKeys else B.rowKeys
  let rowsBig := if smallIsA then B.rowKeys else A.rowKeys
  let nBig := if smallIsA then B.numRows else A.numRows
  rowMapAux rowsBig nBig smallIsA rowsSmall 0

/-- Body of the COUNT kernel `intersection_count` for one matched row
(indices `ia` into A, `ib` into B): extract the two ranges via the row-ptr
arrays and run the merge in COUNT mode; an empty range yields 0.  (The C++
`ia < 0 || ib < 0` guard is unreachable: compacted entries always carry
found indices.) -/
def rowCountOf (A B : Mesh) (ia ib : Nat) : Nat :=
  let beginA := A.rowPtr.getD ia 0
  let endA := A.rowPtr.getD (ia + 1) 0
  let beginB := B.rowPtr.getD ib 0
  let endB := B.rowPtr.getD (ib + 1) 0
  if beginA = endA ∨ beginB = endB then 0
  else rowIntersectionCount (rowSlice A.intervals A.rowPtr ia)
    (rowSlice B.intervals B.rowPtr ib)

/-- The COUNT phase over all matched rows (`row_counts` buffer). -/
def rowCounts (A B : Mesh) (matched : List (RowKey × Nat × Nat)) : List Nat :=
  matched.map fun m => rowCountOf A B m.2.1 m.2.2

/-- SCAN phase `intersection_scan`: the exclusive prefix scan of the counts
written to `out.row_ptr[0 .. R]`; the last entry is the total. -/
def csrScan (counts : List Nat) : List Nat :=
  counts.scanl (· + ·) 0

/-- Body of the FILL kernel `intersection_fill` for one matched row: the
merge in EMIT mode, or nothing when a range is empty. -/
def rowEmitOf (A B : Mesh) (ia ib : Nat) : List Interval :=
  let beginA := A.rowPtr.getD ia 0
  let endA := A.rowPtr.getD (ia + 1) 0
  let beginB := B.rowPtr.getD ib 0
  let endB := B.rowPtr.getD (ib + 1) 0
  if beginA = endA ∨ beginB = endB then []
  else rowIntersectionEmit (rowSlice A.intervals A.rowPtr ia)
    (rowSlice B.intervals B.rowPtr ib)

/-- Writing the segment `seg` into `arr` at positions `[off, off + |seg|)`,
as the EMIT-mode merge writes `intervals_out(out_offset + count)`. -/
def writeSeg (arr : List Interval) (off : Nat) (seg : List Interval) : List Interval :=
  arr.take off ++ seg ++ arr.drop (off + seg.length)

/-- FILL phase: every matched row writes its emitted run at its scanned
offset `out.row_ptr(i)` into the output interval view, which
`detail::allocate_mesh_device` created zero-initialised with capacity
`A.num_intervals + B.num_intervals`.  The rows write pairwise-disjoint
slices, so the sequential left fold computes the same array as the parallel
kernel. -/
def fillPhase (A B : Mesh) (matched : List (RowKey × Nat × Nat))
    (offsets : List Nat) (cap : Nat) : List Interval :=
  (List.zip offsets (matched.map fun m => rowEmitOf A B m.2.1 m.2.2)).foldl
    (fun arr p => writeSeg arr p.1 p.2) (List.replicate cap ⟨0, 0⟩)

/-- COMPACT-phase kernel `intersection_compact_row_ptr` (`intersect_meshes`
lines 420–439): entry `0` is written as `0`; entry `i ≥ 1` is written from
`out.row_ptr` at the `i`-th kept row when the inner counting loop finds one
(`keptIdx[i]?`), and is otherwise left at its zero-initialised value.  (For
`i = final_num_rows` no such row exists, so that entry stays `0`.) -/
def compactRowPtr (rowPtrOut : List Nat) (keptIdx : List Nat) (f : Nat) : List Nat :=
  (List.range (f + 1)).map fun i =>
    if i = 0 then 0
    else match keptIdx[i]? with
      | some j => rowPtrOut.getD j 0
      | none => 0

/-- Phases of `intersect_meshes` after row mapping (`intersection.hpp` lines
225–454): the `R == 0` early return, COUNT, SCAN with its `total == 0` early
return, FILL, and COMPACT with the `final_num_rows == R` shortcut. -/
def intersectPipeline (A B : Mesh) (matched : List (RowKey × Nat × Nat)) : Mesh :=
  let numRowsOut := matched.length
  if numRowsOut = 0 then Mesh.empty
  else
    let outRowKeys := matched.map (·.1)
    let counts := rowCounts A B matched
    let rowPtrOut := csrScan counts
    let total := counts.sum
    if total = 0 then Mesh.empty
    else
      let cap := A.numIntervals + B.numIntervals
      let outIntervals := (fillPhase A B matched rowPtrOut cap).take total
      let keptIdx := (List.range numRowsOut).filter fun i =>
        rowPtrOut.getD i 0 < rowPtrOut.getD (i + 1) 0
      let f := keptIdx.length
      if f = numRowsOut then ⟨outRowKeys, rowPtrOut, outIntervals⟩
      else
        ⟨keptIdx.map (fun j => outRowKeys.getD j ⟨0, 0⟩),
         compactRowPtr rowPtrOut keptIdx f,
         outIntervals⟩

/-- `subsetix::intersect_meshes` (`intersection.hpp` lines 149–455), as the
composition of its phases.  The early returns at `num_rows == 0`,
`num_rows_out == 0` and `total == 0` are the corresponding `if` branches. -/
def intersectMeshes (A B : Mesh) : Mesh :=
  if A.numRows = 0 ∨ B.numRows = 0 then Mesh.empty
  else intersectPipeline A B (rowMap A B)

/-- `subsetix::mesh_to` (`intersection.hpp` lines 473–493): a mesh with zero
rows becomes the default-constructed destination mesh; otherwise the three
arrays are copied verbatim, so the logical content is unchanged. -/
def meshTo (m : Mesh) : Mesh :=
  if m.numRows = 0 then Mesh.empty else m

/-- Whether the run `l` of intervals covers the integer `x` (cells with X in
a half-open `[lo, hi)`). -/
def coversB (l : List Interval) (x : Int) : Bool :=
  l.any fun iv => iv.lo ≤ x && x < iv.hi

/-- Cell membership `(x, y, z) ∈ m`, read through `row_ptr`: some row has key
`(y, z)` and its interval slice covers `x`. -/
def memB (m : Mesh) (x y z : Int) : Bool :=
  (List.range m.numRows).any fun r =>
    m.rowKeys.getD r ⟨0, 0⟩ == ⟨y, z⟩ && coversB (rowSlice m.intervals m.rowPtr r) x

/-- Invariant I3 for one row: intervals sorted by begin, pairwise
non-overlapping (consecutive `hi ≤ lo`), each non-empty. -/
def IntervalRun (l : List Interval) : Prop :=
  List.Pairwise (fun p q => p.hi ≤ q.lo) l ∧ ∀ iv ∈ l, iv.lo < iv.hi

/-- Invariants I1–I4 of the spec on a mesh: strictly increasing row keys
(I1); `row_ptr` of length `num_rows + 1`, starting at 0, ending at
`num_intervals`, monotone (I2); each row slice an `IntervalRun` (I3); no
empty row (I4). -/
def wf (m : Mesh) : Prop :=
  List.Pairwise (fun a b => rowKeyLtB a b = true) m.rowKeys ∧
  m.rowPtr.length = m.numRows + 1 ∧
  m.rowPtr.getD 0 0 = 0 ∧
  m.rowPtr.getD m.numRows 0 = m.numIntervals ∧
  List.Pairwise (· ≤ ·) m.rowPtr ∧
  (∀ r, r < m.numRows → IntervalRun (rowSlice m.intervals m.rowPtr r)) ∧
  (∀ r, r < m.numRows → m.rowPtr.getD r 0 < m.rowPtr.getD (r + 1) 0)

instance : DecidablePred IntervalRun := fun l =>
  inferInstanceAs (Decidable (List.Pairwise (fun p q : Interval => p.hi ≤ q.lo) l ∧
    ∀ iv ∈ l, iv.lo < iv.hi))

instance : DecidablePred wf := fun m =>
  inferInstanceAs (Decidable (List.Pairwise (fun a b => rowKeyLtB a b = true) m.rowKeys ∧
    m.rowPtr.length = m.numRows + 1 ∧
    m.rowPtr.getD 0 0 = 0 ∧
    m.rowPtr.getD m.numRows 0 = m.numIntervals ∧
    List.Pairwise (· ≤ ·) m.rowPtr ∧
    (∀ r, r < m.numRows → IntervalRun (rowSlice m.intervals m.rowPtr r)) ∧
    (∀ r, r < m.numRows → m.rowPtr.getD r 0 < m.rowPtr.getD (r + 1) 0)))

/-! ### Lemmas about the two-pointer merge -/

/-- The fuel is irrelevant as soon as it dominates the loop variant: the
merge always terminates within `|A| + |B|` iterations. -/
lemma emitFuel_congr :
    ∀ (fuel fuel2 : Nat) (as bs : List Interval),
      as.length + bs.length ≤ fuel → as.length + bs.length ≤ fuel2 →
      rowIntersectionEmitFuel fuel as bs = rowIntersectionEmitFuel fuel2 as bs := by
  intro fuel
  induction fuel with
  | zero =>
    intro fuel2 as bs h1 _
    match as, bs with
    | [], [] => cases fuel2 <;> rfl
    | [], b :: bs => simp at h1
    | a :: as, [] => cases fuel2 <;> rfl
    | a :: as, b :: bs => simp at h1
  | succ fuel ih =>
    intro fuel2 as bs h1 h2
    match as, bs with
    | [], [] => cases fuel2 <;> rfl
    | [], b :: bs => cases fuel2 <;> rfl
    | a :: as, [] => cases fuel2 <;> rfl
    | a :: as, b :: bs =>
      match fuel2, h2 with
      | fuel2 + 1, h2 =>
        show (let rest :=
            if a.hi < b.hi then rowIntersectionEmitFuel fuel as (b :: bs)
            else if b.hi < a.hi then rowIntersectionEmitFuel fuel (a :: as) bs
            else rowIntersectionEmitFuel fuel as bs
          if interBegin a b < interEnd a b then ⟨interBegin a b, interEnd a b⟩ :: rest
          else rest) =
          (let rest :=
            if a.hi < b.hi then rowIntersectionEmitFuel fuel2 as (b :: bs)
            else if b.hi < a.hi then rowIntersectionEmitFuel fuel2 (a :: as) bs
            else rowIntersectionEmitFuel fuel2 as bs
          if interBegin a b < interEnd a b then ⟨interBegin a b, interEnd a b⟩ :: rest
          else rest)
        simp only []
        have e1 : rowIntersectionEmitFuel fuel as (b :: bs) =
            rowIntersectionEmitFuel fuel2 as (b :: bs) := by
          apply ih <;> simp at h1 h2 ⊢ <;> omega
        have e2 : rowIntersectionEmitFuel fuel (a :: as) bs =
            rowIntersectionEmitFuel fuel2 (a :: as) bs := by
          apply ih <;> simp at h1 h2 ⊢ <;> omega
        have e3 : rowIntersectionEmitFuel fuel as bs =
            rowIntersectionEmitFuel fuel2 as bs := by
          apply ih <;> simp at h1 h2 ⊢ <;> omega
        rw [e1, e2, e3]

lemma countFuel_congr :
    ∀ (fuel fuel2 : Nat) (as bs : List Interval),
      as.length + bs.length ≤ fuel → as.length + bs.length ≤ fuel2 →
      rowIntersectionCountFuel fuel as bs = rowIntersectionCountFuel fuel2 as bs := by
  intro fuel
  induction fuel with
  | zero =>
    intro fuel2 as bs h1 _
    match as, bs with
    | [], [] => cases fuel2 <;> rfl
    | [], b :: bs => simp at h1
    | a :: as, [] => cases fuel2 <;> rfl
    | a :: as, b :: bs => simp at h1
  | succ fuel ih =>
    intro fuel2 as bs h1 h2
    match as, bs with
    | [], [] => cases fuel2 <;> rfl
    | [], b :: bs => cases fuel2 <;> rfl
    | a :: as, [] => cases fuel2 <;> rfl
    | a :: as, b :: bs =>
      match fuel2, h2 with
      | fuel2 + 1, h2 =>
        show (let rest :=
            if a.hi < b.hi then rowIntersectionCountFuel fuel as (b :: bs)
            else if b.hi < a.hi then rowIntersectionCountFuel fuel (a :: as) bs
            else rowIntersectionCountFuel fuel as bs
          if interBegin a b < interEnd a b then rest + 1 else rest) =
          (let rest :=
            if a.hi < b.hi then rowIntersectionCountFuel fuel2 as (b :: bs)
            else if b.hi < a.hi then rowIntersectionCountFuel fuel2 (a :: as) bs
            else rowIntersectionCountFuel fuel2 as bs
          if interBegin a b < interEnd a b then rest + 1 else rest)
        simp only []
        have e1 : rowIntersectionCountFuel fuel as (b :: bs) =
            rowIntersectionCountFuel fuel2 as (b :: bs) := by
          apply ih <;> simp at h1 h2 ⊢ <;> omega
        have e2 : rowIntersectionCountFuel fuel (a :: as) bs =
            rowIntersectionCountFuel fuel2 (a :: as) bs := by
          apply ih <;> simp at h1 h2 ⊢ <;> omega
        have e3 : rowIntersectionCountFuel fuel as bs =
            rowIntersectionCountFuel fuel2 as bs := by
          apply ih <;> simp at h1 h2 ⊢ <;> omega
        rw [e1, e2, e3]

lemma emit_nil_right (as : List Interval) : rowIntersectionEmit as [] = [] := by
  unfold rowIntersectionEmit
  cases as <;> rfl

lemma emit_nil_left (bs : List Interval) : rowIntersectionEmit [] bs = [] := by
  unfold rowIntersectionEmit
  cases bs <;> rfl

lemma emit_cons_cons (a b : Interval) (as bs : List Interval) :
    rowIntersectionEmit (a :: as) (b :: bs) =
      (let rest :=
        if a.hi < b.hi then rowIntersectionEmit as (b :: bs)
        else if b.hi < a.hi then rowIntersectionEmit (a :: as) bs
        else rowIntersectionEmit as bs
       if interBegin a b < interEnd a b then
         ⟨interBegin a b, interEnd a b⟩ :: rest else rest) := by
  have hunfold : rowIntersectionEmit (a :: as) (b :: bs) =
      (let rest :=
        if a.hi < b.hi then
          rowIntersectionEmitFuel ((a :: as).length + bs.length) as (b :: bs)
        else if b.hi < a.hi then
          rowIntersectionEmitFuel ((a :: as).length + bs.length) (a :: as) bs
        else rowIntersectionEmitFuel ((a :: as).length + bs.length) as bs
       if interBegin a b < interEnd a b then
         ⟨interBegin a b, interEnd a b⟩ :: rest else rest) := rfl
  rw [hunfold]
  simp only []
  have e1 : rowIntersectionEmitFuel ((a :: as).length + bs.length) as (b :: bs) =
      rowIntersectionEmit as (b :: bs) := by
    apply emitFuel_congr <;> simp <;> omega
  have e3 : rowIntersectionEmitFuel ((a :: as).length + bs.length) as bs =
      rowIntersectionEmit as bs := by
    apply emitFuel_congr <;> simp <;> omega
  rw [e1, e3]
  rfl

lemma count_nil_right (as : List Interval) : rowIntersectionCount as [] = 0 := by
  unfold rowIntersectionCount
  cases as <;> rfl

lemma count_nil_left (bs : List Interval) : rowIntersectionCount [] bs = 0 := by
  unfold rowIntersectionCount
  cases bs <;> rfl

lemma count_cons_cons (a b : Interval) (as bs : List Interval) :
    rowIntersectionCount (a :: as) (b :: bs) =
      (let rest :=
        if a.hi < b.hi then rowIntersectionCount as (b :: bs)
        else if b.hi < a.hi then rowIntersectionCount (a :: as) bs
        else rowIntersectionCount as bs
       if interBegin a b < interEnd a b then rest + 1 else rest) := by
  have hunfold : rowIntersectionCount (a :: as) (b :: bs) =
      (let rest :=
        if a.hi < b.hi then
          rowIntersectionCountFuel ((a :: as).length + bs.length) as (b :: bs)
        else if b.hi < a.hi then
          rowIntersectionCountFuel ((a :: as).length + bs.length) (a :: as) bs
        else rowIntersectionCountFuel ((a :: as).length + bs.length) as bs
       if interBegin a b < interEnd a b then rest + 1 else rest) := rfl
  rw [hunfold]
  simp only []
  have e1 : rowIntersectionCountFuel ((a :: as).length + bs.length) as (b :: bs) =
      rowIntersectionCount as (b :: bs) := by
    apply countFuel_congr <;> simp <;> omega
  have e3 : rowIntersectionCountFuel ((a :: as).length + bs.length) as bs =
      rowIntersectionCount as bs := by
    apply countFuel_congr <;> simp <;> omega
  rw [e1, e3]
  rfl

/-- Induction along the two-pointer traversal. -/
lemma merge_induction (motive : List Interval → List Interval → Prop)
    (h1 : ∀ as, motive as [])
    (h2 : ∀ bs, motive [] bs)
    (h3 : ∀ a as b bs, motive as (b :: bs) → motive (a :: as) bs → motive as bs →
      motive (a :: as) (b :: bs)) :
    ∀ as bs, motive as bs := by
  have key : ∀ n as bs, as.length + bs.length ≤ n → motive as bs := by
    intro n
    induction n with
    | zero =>
      intro as bs h
      match as, bs with
      | [], bs => exact h2 bs
      | a :: as, [] => exact h1 (a :: as)
      | a :: as, b :: bs => simp at h
    | succ n ih =>
      intro as bs h
      match as, bs with
      | [], bs => exact h2 bs
      | a :: as, [] => exact h1 (a :: as)
      | a :: as, b :: bs =>
        refine h3 a as b bs ?_ ?_ ?_ <;> apply ih <;> simp at h ⊢ <;> omega
  exact fun as bs => key (as.length + bs.length) as bs (le_refl _)

lemma interBegin_comm (a b : Interval) : interBegin a b = interBegin b a := by
  unfold interBegin; split <;> split <;> omega

lemma interEnd_comm (a b : Interval) : interEnd a b = interEnd b a := by
  unfold interEnd; split <;> split <;> omega

lemma interOf_comm (a b : Interval) : interOf a b = interOf b a := by
  unfold interOf; rw [interBegin_comm, interEnd_comm]

/-- COUNT mode and EMIT mode agree: the count is the length of the emitted
sequence. -/
lemma count_eq_emit_length (as bs : List Interval) :
    rowIntersectionCount as bs = (rowIntersectionEmit as bs).length := by
  induction as, bs using merge_induction with
  | h1 as => simp [count_nil_right, emit_nil_right]
  | h2 bs => simp [count_nil_left, emit_nil_left]
  | h3 a as b bs ih1 ih2 ih3 =>
    rw [count_cons_cons, emit_cons_cons]
    simp only []
    rcases lt_trichotomy a.hi b.hi with h | h | h
    · simp only [if_pos h]
      split <;> simp [ih1]
    · simp only [h, lt_irrefl, if_neg, if_false]
      split <;> simp [ih3]
    · simp only [not_lt.2 h.le, if_neg, if_pos h, if_false]
      split <;> simp [ih2]

/-- In a valid run, every later interval starts no earlier than the first
interval ends. -/
lemma run_head_le (x : Interval) (t : List Interval) (h : IntervalRun (x :: t)) :
    ∀ u ∈ t, x.hi ≤ u.lo :=
  (List.pairwise_cons.1 h.1).1

lemma run_tail {x : Interval} {t : List Interval} (h : IntervalRun (x :: t)) :
    IntervalRun t :=
  ⟨(List.pairwise_cons.1 h.1).2, fun iv hiv => h.2 iv (List.mem_cons_of_mem x hiv)⟩

lemma interEnd_le_left (a b : Interval) : interEnd a b ≤ a.hi := by
  unfold interEnd; split <;> omega

lemma interEnd_le_right (a b : Interval) : interEnd a b ≤ b.hi := by
  unfold interEnd; split <;> omega

lemma left_le_interBegin (a b : Interval) : a.lo ≤ interBegin a b := by
  unfold interBegin; split <;> omega

lemma right_le_interBegin (a b : Interval) : b.lo ≤ interBegin a b := by
  unfold interBegin; split <;> omega

/-- Resolving the merge step in the three advancement cases.  Advance the
side whose interval ends first; emission happens before advancing. -/
lemma emit_step_lt (a b : Interval) (as bs : List Interval) (h : a.hi < b.hi) :
    rowIntersectionEmit (a :: as) (b :: bs) =
      (if interBegin a b < interEnd a b then [interOf a b] else []) ++
        rowIntersectionEmit as (b :: bs) := by
  rw [emit_cons_cons]
  simp only [h, if_pos]
  split <;> simp [interOf]

lemma emit_step_gt (a b : Interval) (as bs : List Interval) (h : b.hi < a.hi) :
    rowIntersectionEmit (a :: as) (b :: bs) =
      (if interBegin a b < interEnd a b then [interOf a b] else []) ++
        rowIntersectionEmit (a :: as) bs := by
  rw [emit_cons_cons]
  simp only [not_lt.2 (le_of_lt h), if_neg, h, if_pos, if_false]
  split <;> simp [interOf]

lemma emit_step_eq (a b : Interval) (as bs : List Interval) (h : a.hi = b.hi) :
    rowIntersectionEmit (a :: as) (b :: bs) =
      (if interBegin a b < interEnd a b then [interOf a b] else []) ++
        rowIntersectionEmit as bs := by
  rw [emit_cons_cons]
  simp only [h, lt_irrefl, if_neg, if_false]
  split <;> simp [interOf]

/-- The merge is symmetric in its two inputs: the emitted sequences of
`emit(A, B)` and `emit(B, A)` coincide. -/
lemma emit_comm (as bs : List Interval) :
    rowIntersectionEmit as bs = rowIntersectionEmit bs as := by
  induction as, bs using merge_induction with
  | h1 as => simp [emit_nil_right, emit_nil_left]
  | h2 bs => simp [emit_nil_right, emit_nil_left]
  | h3 a as b bs ih1 ih2 ih3 =>
    rcases lt_trichotomy a.hi b.hi with h | h | h
    · rw [emit_step_lt a b as bs h, emit_step_gt b a bs as h,
        interBegin_comm b a, interEnd_comm b a, interOf_comm b a, ih1]
    · rw [emit_step_eq a b as bs h, emit_step_eq b a bs as h.symm,
        interBegin_comm b a, interEnd_comm b a, interOf_comm b a, ih3]
    · rw [emit_step_gt a b as bs h, emit_step_lt b a bs as h,
        interBegin_comm b a, interEnd_comm b a, interOf_comm b a, ih2]

/-- Characterisation of the emitted sequence: under I3 on both inputs, an
interval is emitted iff it is a non-empty pairwise intersection
`a ∩ b` with `a ∈ A`, `b ∈ B`. -/
lemma emit_mem_iff :
    ∀ n as bs, as.length + bs.length ≤ n → IntervalRun as → IntervalRun bs →
      ∀ c, (c ∈ rowIntersectionEmit as bs ↔
        ∃ a ∈ as, ∃ b ∈ bs, interBegin a b < interEnd a b ∧ c = interOf a b) := by
  intro n
  induction n with
  | zero =>
    intro as bs hlen _ _ c
    have : as = [] := by cases as <;> simp_all
    subst this
    simp [emit_nil_left]
  | succ n ih =>
    intro as bs hlen ha hb c
    match as, bs with
    | [], bs => simp [emit_nil_left]
    | a :: as, [] => simp [emit_nil_right]
    | a :: as, b :: bs =>
      rcases lt_trichotomy a.hi b.hi with h | h | h
      · rw [emit_step_lt a b as bs h]
        constructor
        · intro hc
          rcases List.mem_append.1 hc with hc0 | hcr
          · refine ⟨a, by simp, b, by simp, ?_, ?_⟩ <;>
              [skip; skip] <;> (split at hc0 <;> simp_all [interOf])
          · obtain ⟨a', ha', b', hb', hlt, hceq⟩ :=
              (ih as (b :: bs) (by simp at hlen ⊢; omega) (run_tail ha) hb c).1 hcr
            exact ⟨a', List.mem_cons_of_mem a ha', b', hb', hlt, hceq⟩
        · rintro ⟨a', ha', b', hb', hlt, rfl⟩
          rcases List.mem_cons.1 ha' with rfl | ha'
          · rcases List.mem_cons.1 hb' with rfl | hb'
            · exact List.mem_append.2 (Or.inl (by simp [hlt]))
            · exfalso
              have h1 := interEnd_le_left a' b'
              have h2 := right_le_interBegin a' b'
              have h3 := run_head_le b bs hb b' hb'
              omega
          · exact List.mem_append.2 (Or.inr
              ((ih as (b :: bs) (by simp at hlen ⊢; omega) (run_tail ha) hb _).2
                ⟨a', ha', b', hb', hlt, rfl⟩))
      · rw [emit_step_eq a b as bs h]
        constructor
        · intro hc
          rcases List.mem_append.1 hc with hc0 | hcr
          · refine ⟨a, by simp, b, by simp, ?_, ?_⟩ <;>
              [skip; skip] <;> (split at hc0 <;> simp_all [interOf])
          · obtain ⟨a', ha', b', hb', hlt, hceq⟩ :=
              (ih as bs (by simp at hlen ⊢; omega) (run_tail ha) (run_tail hb) c).1 hcr
            exact ⟨a', List.mem_cons_of_mem a ha', b', List.mem_cons_of_mem b hb', hlt, hceq⟩
        · rintro ⟨a', ha', b', hb', hlt, rfl⟩
          rcases List.mem_cons.1 ha' with rfl | ha'
          · rcases List.mem_cons.1 hb' with rfl | hb'
            · exact List.mem_append.2 (Or.inl (by simp [hlt]))
            · exfalso
              have h1 := interEnd_le_left a' b'
              have h2 := right_le_interBegin a' b'
              have h3 := run_head_le b bs hb b' hb'
              omega
          · rcases List.mem_cons.1 hb' with rfl | hb'
            · exfalso
              have h1 := interEnd_le_right a' b'
              have h2 := left_le_interBegin a' b'
              have h3 := run_head_le a as ha a' ha'
              omega
            · exact List.mem_append.2 (Or.inr
                ((ih as bs (by simp at hlen ⊢; omega) (run_tail ha) (run_tail hb) _).2
                  ⟨a', ha', b', hb', hlt, rfl⟩))
      · rw [emit_step_gt a b as bs h]
        constructor
        · intro hc
          rcases List.mem_append.1 hc with hc0 | hcr
          · refine ⟨a, by simp, b, by simp, ?_, ?_⟩ <;>
              [skip; skip] <;> (split at hc0 <;> simp_all [interOf])
          · obtain ⟨a', ha', b', hb', hlt, hceq⟩ :=
              (ih (a :: as) bs (by simp at hlen ⊢; omega) ha (run_tail hb) c).1 hcr
            exact ⟨a', ha', b', List.mem_cons_of_mem b hb', hlt, hceq⟩
        · rintro ⟨a', ha', b', hb', hlt, rfl⟩
          rcases List.mem_cons.1 hb' with rfl | hb'
          · rcases List.mem_cons.1 ha' with rfl | ha'
            · exact List.mem_append.2 (Or.inl (by simp [hlt]))
            · exfalso
              have h1 := interEnd_le_right a' b'
              have h2 := left_le_interBegin a' b'
              have h3 := run_head_le a as ha a' ha'
              omega
          · exact List.mem_append.2 (Or.inr
              ((ih (a :: as) bs (by simp at hlen ⊢; omega) ha (run_tail hb) _).2
                ⟨a', ha', b', hb', hlt, rfl⟩))

/-- The emitted sequence itself satisfies I3: sorted, pairwise
non-overlapping, non-empty intervals. -/
lemma emit_run :
    ∀ n as bs, as.length + bs.length ≤ n → IntervalRun as → IntervalRun bs →
      IntervalRun (rowIntersectionEmit as bs) := by
  intro n
  induction n with
  | zero =>
    intro as bs hlen _ _
    have : as = [] := by cases as <;> simp_all
    subst this
    simp [emit_nil_left, IntervalRun]
  | succ n ih =>
    intro as bs hlen ha hb
    match as, bs with
    | [], bs => simp [emit_nil_left, IntervalRun]
    | a :: as, [] => simp [emit_nil_right, IntervalRun]
    | a :: as, b :: bs =>
      rcases lt_trichotomy a.hi b.hi with h | h | h
      · have hlen' : as.length + (b :: bs).length ≤ n := by simp at hlen ⊢; omega
        have hrest := ih as (b :: bs) hlen' (run_tail ha) hb
        have hbound : ∀ c ∈ rowIntersectionEmit as (b :: bs), interEnd a b ≤ c.lo := by
          intro c hc
          obtain ⟨a', ha', b', hb', _, rfl⟩ :=
            (emit_mem_iff n as (b :: bs) hlen' (run_tail ha) hb c).1 hc
          have h1 := run_head_le a as ha a' ha'
          have h2 := left_le_interBegin a' b'
          have h3 := interEnd_le_left a b
          simp only [interOf]
          omega
        rw [emit_step_lt a b as bs h]
        by_cases hse : interBegin a b < interEnd a b
        · simp only [hse, if_pos, List.singleton_append]
          refine ⟨List.pairwise_cons.2 ⟨fun y hy => ?_, hrest.1⟩, fun iv hiv => ?_⟩
          · exact hbound y hy
          · rcases List.mem_cons.1 hiv with rfl | hiv
            · exact hse
            · exact hrest.2 iv hiv
        · simpa [hse] using hrest
      · have hlen' : as.length + bs.length ≤ n := by simp at hlen ⊢; omega
        have hrest := ih as bs hlen' (run_tail ha) (run_tail hb)
        have hbound : ∀ c ∈ rowIntersectionEmit as bs, interEnd a b ≤ c.lo := by
          intro c hc
          obtain ⟨a', ha', b', hb', _, rfl⟩ :=
            (emit_mem_iff n as bs hlen' (run_tail ha) (run_tail hb) c).1 hc
          have h1 := run_head_le a as ha a' ha'
          have h2 := left_le_interBegin a' b'
          have h3 := interEnd_le_left a b
          simp only [interOf]
          omega
        rw [emit_step_eq a b as bs h]
        by_cases hse : interBegin a b < interEnd a b
        · simp only [hse, if_pos, List.singleton_append]
          refine ⟨List.pairwise_cons.2 ⟨fun y hy => ?_, hrest.1⟩, fun iv hiv => ?_⟩
          · exact hbound y hy
          · rcases List.mem_cons.1 hiv with rfl | hiv
            · exact hse
            · exact hrest.2 iv hiv
        · simpa [hse] using hrest
      · have hlen' : (a :: as).length + bs.length ≤ n := by simp at hlen ⊢; omega
        have hrest := ih (a :: as) bs hlen' ha (run_tail hb)
        have hbound : ∀ c ∈ rowIntersectionEmit (a :: as) bs, interEnd a b ≤ c.lo := by
          intro c hc
          obtain ⟨a', ha', b', hb', _, rfl⟩ :=
            (emit_mem_iff n (a :: as) bs hlen' ha (run_tail hb) c).1 hc
          have h1 := run_head_le b bs hb b' hb'
          have h2 := right_le_interBegin a' b'
          have h3 := interEnd_le_right a b
          simp only [interOf]
          omega
        rw [emit_step_gt a b as bs h]
        by_cases hse : interBegin a b < interEnd a b
        · simp only [hse, if_pos, List.singleton_append]
          refine ⟨List.pairwise_cons.2 ⟨fun y hy => ?_, hrest.1⟩, fun iv hiv => ?_⟩
          · exact hbound y hy
          · rcases List.mem_cons.1 hiv with rfl | hiv
            · exact hse
            · exact hrest.2 iv hiv
        · simpa [hse] using hrest

/-- Merging a valid run with itself reproduces it. -/
lemma emit_self (l : List Interval) (h : IntervalRun l) :
    rowIntersectionEmit l l = l := by
  induction l with
  | nil => simp [emit_nil_left]
  | cons x t ih =>
    rw [emit_step_eq x x t t rfl]
    have hx : x.lo < x.hi := h.2 x (by simp)
    have hb : interBegin x x = x.lo := by unfold interBegin; simp
    have he : interEnd x x = x.hi := by unfold interEnd; simp
    rw [hb, he]
    simp only [hx, if_pos, interOf, hb, he, List.singleton_append]
    rw [ih (run_tail h)]

/-- Each merge iteration advances at least one side and emits at most one
interval, so the count is at most `|A| + |B| - 1`. -/
lemma count_le (as bs : List Interval) :
    rowIntersectionCount as bs ≤ as.length + bs.length - 1 := by
  induction as, bs using merge_induction with
  | h1 as => simp [count_nil_right]
  | h2 bs => simp [count_nil_left]
  | h3 a as b bs ih1 ih2 ih3 =>
    rw [count_cons_cons]
    simp only []
    rcases lt_trichotomy a.hi b.hi with h | h | h
    · simp only [if_pos h]
      split <;> simp at ih1 ⊢ <;> omega
    · simp only [h, lt_irrefl, if_neg, if_false]
      split <;> simp at ih3 ⊢ <;> omega
    · simp only [not_lt.2 h.le, if_neg, if_pos h, if_false]
      split <;> simp at ih2 ⊢ <;> omega

/-- Every emitted bound is one of the input bounds: the merge computes only
comparisons and copies coordinates, never arithmetic on them. -/
lemma emit_bounds (as bs : List Interval) :
    ∀ c ∈ rowIntersectionEmit as bs,
      (c.lo ∈ as.map Interval.lo ∨ c.lo ∈ bs.map Interval.lo) ∧
      (c.hi ∈ as.map Interval.hi ∨ c.hi ∈ bs.map Interval.hi) := by
  induction as, bs using merge_induction with
  | h1 as => simp [emit_nil_right]
  | h2 bs => simp [emit_nil_left]
  | h3 a as b bs ih1 ih2 ih3 =>
    intro c hc
    have hstep : c = interOf a b ∨
        (c ∈ rowIntersectionEmit as (b :: bs) ∨ c ∈ rowIntersectionEmit (a :: as) bs ∨
          c ∈ rowIntersectionEmit as bs) := by
      rcases lt_trichotomy a.hi b.hi with h | h | h
      · rw [emit_step_lt a b as bs h] at hc
        rcases List.mem_append.1 hc with hc0 | hcr
        · left; split at hc0 <;> simp_all
        · right; left; exact hcr
      · rw [emit_step_eq a b as bs h] at hc
        rcases List.mem_append.1 hc with hc0 | hcr
        · left; split at hc0 <;> simp_all
        · right; right; right; exact hcr
      · rw [emit_step_gt a b as bs h] at hc
        rcases List.mem_append.1 hc with hc0 | hcr
        · left; split at hc0 <;> simp_all
        · right; right; left; exact hcr
    rcases hstep with rfl | hcr | hcr | hcr
    · constructor
      · simp only [interOf]
        unfold interBegin
        split <;> simp
      · simp only [interOf]
        unfold interEnd
        split <;> simp
    · obtain ⟨h1, h2⟩ := ih1 c hcr
      constructor
      · rcases h1 with h1 | h1
        · exact Or.inl (by simp at h1 ⊢; tauto)
        · exact Or.inr h1
      · rcases h2 with h2 | h2
        · exact Or.inl (by simp at h2 ⊢; tauto)
        · exact Or.inr h2
    · obtain ⟨h1, h2⟩ := ih2 c hcr
      constructor
      · rcases h1 with h1 | h1
        · exact Or.inl h1
        · exact Or.inr (by simp at h1 ⊢; tauto)
      · rcases h2 with h2 | h2
        · exact Or.inl h2
        · exact Or.inr (by simp at h2 ⊢; tauto)
    · obtain ⟨h1, h2⟩ := ih3 c hcr
      constructor
      · rcases h1 with h1 | h1
        · exact Or.inl (by simp at h1 ⊢; tauto)
        · exact Or.inr (by simp at h1 ⊢; tauto)
      · rcases h2 with h2 | h2
        · exact Or.inl (by simp at h2 ⊢; tauto)
        · exact Or.inr (by simp at h2 ⊢; tauto)

/-! ### Lemmas about the row-key order and the binary search -/

lemma rowKeyLtB_iff (a b : RowKey) :
    rowKeyLtB a b = true ↔ (a.y < b.y ∨ (a.y = b.y ∧ a.z < b.z)) := by
  unfold rowKeyLtB
  split <;> simp_all

lemma rowKeyLtB_irrefl (a : RowKey) : rowKeyLtB a a = false := by
  unfold rowKeyLtB; simp

lemma rowKeyLtB_trans {a b c : RowKey} (h1 : rowKeyLtB a b = true)
    (h2 : rowKeyLtB b c = true) : rowKeyLtB a c = true := by
  rw [rowKeyLtB_iff] at *
  rcases h1 with h1 | ⟨h1, h1z⟩ <;> rcases h2 with h2 | ⟨h2, h2z⟩ <;>
    [exact Or.inl (by omega); exact Or.inl (by omega); exact Or.inl (by omega);
     exact Or.inr ⟨by omega, by omega⟩]

lemma rowKeyLtB_ne {a b : RowKey} (h : rowKeyLtB a b = true) : a ≠ b := by
  rintro rfl
  rw [rowKeyLtB_irrefl] at h
  cases h

/-- A strictly sorted key list has no duplicates. -/
lemma sortedKeys_nodup {l : List RowKey}
    (h : List.Pairwise (fun a b => rowKeyLtB a b = true) l) : l.Nodup :=
  h.imp rowKeyLtB_ne

lemma pairwise_getD_ltB {l : List RowKey}
    (h : List.Pairwise (fun a b => rowKeyLtB a b = true) l)
    {i j : Nat} (hij : i < j) (hj : j < l.length) :
    rowKeyLtB (l.getD i ⟨0, 0⟩) (l.getD j ⟨0, 0⟩) = true := by
  have hi : i < l.length := lt_trans hij hj
  rw [List.getD_eq_getElem l _ hi, List.getD_eq_getElem l _ hj]
  exact List.pairwise_iff_get.1 h ⟨i, hi⟩ ⟨j, hj⟩ hij

/-- Invariant of the bisection loop (fuel form): starting from a window in
which everything left of `lo` is `< k` and everything from `hi` on is
`≥ k`, the loop returns the first index whose key is `≥ k`, for any fuel
dominating the loop variant. -/
lemma lowerBoundFuel_spec (rows : List RowKey) (k : RowKey)
    (hsorted : List.Pairwise (fun a b => rowKeyLtB a b = true) rows) :
    ∀ fuel lo hi, hi - lo ≤ fuel → lo ≤ hi → hi ≤ rows.length →
      (∀ j, j < lo → rowKeyLtB (rows.getD j ⟨0, 0⟩) k = true) →
      (∀ j, hi ≤ j → j < rows.length → rowKeyLtB (rows.getD j ⟨0, 0⟩) k = false) →
      lo ≤ lowerBoundFuel rows k fuel lo hi ∧ lowerBoundFuel rows k fuel lo hi ≤ hi ∧
      (∀ j, j < lowerBoundFuel rows k fuel lo hi →
        rowKeyLtB (rows.getD j ⟨0, 0⟩) k = true) ∧
      (∀ j, lowerBoundFuel rows k fuel lo hi ≤ j → j < rows.length →
        rowKeyLtB (rows.getD j ⟨0, 0⟩) k = false) := by
  intro fuel
  induction fuel with
  | zero =>
    intro lo hi hfuel hlohi hhi hleft hright
    have heq : lo = hi := by omega
    subst heq
    exact ⟨le_refl _, le_refl _, hleft, fun j hj hjn => hright j hj hjn⟩
  | succ fuel ih =>
    intro lo hi hfuel hlohi hhi hleft hright
    have hstep : lowerBoundFuel rows k (fuel + 1) lo hi =
        (if lo < hi then
          (if rowKeyLtB (rows.getD (lo + (hi - lo) / 2) ⟨0, 0⟩) k then
            lowerBoundFuel rows k fuel (lo + (hi - lo) / 2 + 1) hi
          else lowerBoundFuel rows k fuel lo (lo + (hi - lo) / 2))
        else lo) := rfl
    rw [hstep]
    by_cases hlh : lo < hi
    · simp only [hlh, if_pos]
      set mid := lo + (hi - lo) / 2 with hmid
      have hmid2 : mid < hi := by omega
      by_cases hkey : rowKeyLtB (rows.getD mid ⟨0, 0⟩) k = true
      · simp only [hkey, if_pos]
        have hleft2 : ∀ j, j < mid + 1 → rowKeyLtB (rows.getD j ⟨0, 0⟩) k = true := by
          intro j hj
          rcases Nat.lt_or_ge j mid with hjm | hjm
          · rcases Nat.lt_or_ge j lo with hjl | hjl
            · exact hleft j hjl
            · exact rowKeyLtB_trans (pairwise_getD_ltB hsorted hjm (by omega)) hkey
          · have hjeq : j = mid := by omega
            subst hjeq
            exact hkey
        obtain ⟨g1, g2, g3, g4⟩ := ih (mid + 1) hi (by omega) (by omega) hhi hleft2 hright
        exact ⟨by omega, g2, g3, g4⟩
      · have hkeyf : rowKeyLtB (rows.getD mid ⟨0, 0⟩) k = false := by
          simpa using hkey
        simp only [hkeyf, Bool.false_eq_true, if_false]
        have hright2 : ∀ j, mid ≤ j → j < rows.length →
            rowKeyLtB (rows.getD j ⟨0, 0⟩) k = false := by
          intro j hj hjn
          rcases Nat.eq_or_lt_of_le hj with heq | hjm
          · subst heq
            exact hkeyf
          · by_contra hcon
            simp only [Bool.not_eq_false] at hcon
            have := rowKeyLtB_trans (pairwise_getD_ltB hsorted hjm hjn) hcon
            rw [this] at hkeyf
            cases hkeyf
        obtain ⟨g1, g2, g3, g4⟩ := ih lo mid (by omega) (by omega) (by omega) hleft hright2
        exact ⟨g1, by omega, g3, g4⟩
    · simp only [hlh, if_neg, if_false, not_false_iff]
      have heq : lo = hi := by omega
      subst heq
      exact ⟨le_refl _, le_refl _, hleft, fun j hj hjn => hright j hj hjn⟩

/-- The loop invariant instantiated at the initial fuel `hi - lo`. -/
lemma lowerBound_spec (rows : List RowKey) (k : RowKey)
    (hsorted : List.Pairwise (fun a b => rowKeyLtB a b = true) rows) :
    ∀ fuel lo hi, hi - lo ≤ fuel → lo ≤ hi → hi ≤ rows.length →
      (∀ j, j < lo → rowKeyLtB (rows.getD j ⟨0, 0⟩) k = true) →
      (∀ j, hi ≤ j → j < rows.length → rowKeyLtB (rows.getD j ⟨0, 0⟩) k = false) →
      lo ≤ lowerBound rows k lo hi ∧ lowerBound rows k lo hi ≤ hi ∧
      (∀ j, j < lowerBound rows k lo hi → rowKeyLtB (rows.getD j ⟨0, 0⟩) k = true) ∧
      (∀ j, lowerBound rows k lo hi ≤ j → j < rows.length →
        rowKeyLtB (rows.getD j ⟨0, 0⟩) k = false) := by
  intro _ lo hi _ hlohi hhi hleft hright
  unfold lowerBound
  exact lowerBoundFuel_spec rows k hsorted (hi - lo) lo hi (le_refl _) hlohi hhi
    hleft hright

/-- Unfolding `find_row_by_yz` to its branch structure. -/
lemma findRowByYZ_def (rows : List RowKey) (n : Nat) (y z : Int) :
    findRowByYZ rows n y z =
      (if lowerBound rows ⟨y, z⟩ 0 n < n then
        (if (rows.getD (lowerBound rows ⟨y, z⟩ 0 n) ⟨0, 0⟩).y = y ∧
            (rows.getD (lowerBound rows ⟨y, z⟩ 0 n) ⟨0, 0⟩).z = z then
          ((lowerBound rows ⟨y, z⟩ 0 n : Nat) : Int)
        else -1)
      else -1) := rfl

/-- Soundness of `find_row_by_yz`: a non-negative result is a valid index
whose key is the searched one. -/
lemma findRowByYZ_sound (rows : List RowKey) (n : Nat) (y z : Int)
    (h : 0 ≤ findRowByYZ rows n y z) :
    (findRowByYZ rows n y z).toNat < n ∧
      rows.getD (findRowByYZ rows n y z).toNat ⟨0, 0⟩ = ⟨y, z⟩ := by
  rw [findRowByYZ_def] at h ⊢
  by_cases h1 : lowerBound rows ⟨y, z⟩ 0 n < n
  · rw [if_pos h1] at h ⊢
    by_cases h2 : (rows.getD (lowerBound rows ⟨y, z⟩ 0 n) ⟨0, 0⟩).y = y ∧
        (rows.getD (lowerBound rows ⟨y, z⟩ 0 n) ⟨0, 0⟩).z = z
    · rw [if_pos h2] at h ⊢
      refine ⟨by simpa using h1, ?_⟩
      cases hk : rows.getD (lowerBound rows ⟨y, z⟩ 0 n) ⟨0, 0⟩ with
      | mk ky kz => simp_all
    · rw [if_neg h2] at h
      omega
  · rw [if_neg h1] at h
    omega

/-- Completeness of `find_row_by_yz` on a sorted key list: a present key is
found, at its (unique) index. -/
lemma findRowByYZ_found (rows : List RowKey)
    (hsorted : List.Pairwise (fun a b => rowKeyLtB a b = true) rows)
    (k : RowKey) (hk : k ∈ rows) :
    findRowByYZ rows rows.length k.y k.z = Int.ofNat (rows.indexOf k) := by
  obtain ⟨⟨i0, hi0⟩, hget⟩ := List.mem_iff_get.1 hk
  obtain ⟨hr1, hr2, hr3, hr4⟩ := lowerBound_spec rows k hsorted rows.length 0 rows.length
    (by omega) (by omega) (le_refl _) (by omega) (by intro j hj hjn; omega)
  set r := lowerBound rows k 0 rows.length with hrdef
  have hki0 : rows.getD i0 ⟨0, 0⟩ = k := by
    rw [List.getD_eq_getElem rows _ hi0]
    simpa using hget
  have hri0 : r ≤ i0 := by
    by_contra hcon
    have := hr3 i0 (by omega)
    rw [hki0, rowKeyLtB_irrefl] at this
    cases this
  have hreq : r = i0 := by
    rcases Nat.eq_or_lt_of_le hri0 with h | h
    · exact h
    · exfalso
      have hlt := pairwise_getD_ltB hsorted h hi0
      rw [hki0] at hlt
      have := hr4 r (le_refl _) (by omega)
      rw [hlt] at this
      cases this
  have hidx : rows.indexOf k = i0 := by
    rw [← hget]
    exact List.get_indexOf (sortedKeys_nodup hsorted) ⟨i0, hi0⟩
  rw [findRowByYZ_def]
  have hkyz : (⟨k.y, k.z⟩ : RowKey) = k := rfl
  rw [hkyz, ← hrdef, hreq]
  rw [if_pos hi0, if_pos (by rw [hki0]; exact ⟨rfl, rfl⟩)]
  simp [hidx]

/-- A key that is absent from the searched list yields `-1`. -/
lemma findRowByYZ_not_found (rows : List RowKey) (y z : Int)
    (hk : (⟨y, z⟩ : RowKey) ∉ rows) :
    findRowByYZ rows rows.length y z = -1 := by
  have halt : findRowByYZ rows rows.length y z = -1 ∨
      0 ≤ findRowByYZ rows rows.length y z := by
    rw [findRowByYZ_def]
    split
    · split
      · right; omega
      · left; rfl
    · left; rfl
  rcases halt with h | h
  · exact h
  · exfalso
    obtain ⟨hlt, heq⟩ := findRowByYZ_sound rows rows.length y z h
    apply hk
    rw [← heq, List.getD_eq_getElem rows _ (by omega)]
    exact List.getElem_mem _

/-! ### Lemmas about the row-mapping phase -/

/-- Two strictly sorted key lists with the same members are equal. -/
lemma sorted_eq_of_mem_iff :
    ∀ {l1 l2 : List RowKey},
      List.Pairwise (fun a b => rowKeyLtB a b = true) l1 →
      List.Pairwise (fun a b => rowKeyLtB a b = true) l2 →
      (∀ x, x ∈ l1 ↔ x ∈ l2) → l1 = l2 := by
  intro l1
  induction l1 with
  | nil =>
    intro l2 _ _ hm
    cases l2 with
    | nil => rfl
    | cons b t2 => exact absurd ((hm b).2 (by simp)) (by simp)
  | cons a t1 ih =>
    intro l2 h1 h2 hm
    cases l2 with
    | nil => exact absurd ((hm a).1 (by simp)) (by simp)
    | cons b t2 =>
      have hp1 := List.pairwise_cons.1 h1
      have hp2 := List.pairwise_cons.1 h2
      have hab : a = b := by
        rcases List.mem_cons.1 ((hm a).1 (by simp)) with h | h
        · exact h
        · rcases List.mem_cons.1 ((hm b).2 (by simp)) with h' | h'
          · exact h'.symm
          · exfalso
            have hba := hp2.1 a h
            have hab := hp1.1 b h'
            have := rowKeyLtB_trans hab hba
            rw [rowKeyLtB_irrefl] at this
            cases this
      subst hab
      have htails : ∀ x, x ∈ t1 ↔ x ∈ t2 := by
        intro x
        constructor
        · intro hx
          rcases List.mem_cons.1 ((hm x).1 (List.mem_cons_of_mem a hx)) with rfl | h
          · exfalso
            have := hp1.1 x hx
            rw [rowKeyLtB_irrefl] at this
            cases this
          · exact h
        · intro hx
          rcases List.mem_cons.1 ((hm x).2 (List.mem_cons_of_mem a hx)) with rfl | h
          · exfalso
            have := hp2.1 x hx
            rw [rowKeyLtB_irrefl] at this
            cases this
          · exact h
      rw [ih hp1.2 hp2.2 htails]

/-- Filtering one sorted key list by membership in another is symmetric:
both compute the sorted list of common keys. -/
lemma sorted_filter_comm {l1 l2 : List RowKey}
    (h1 : List.Pairwise (fun a b => rowKeyLtB a b = true) l1)
    (h2 : List.Pairwise (fun a b => rowKeyLtB a b = true) l2) :
    l1.filter (fun k => decide (k ∈ l2)) = l2.filter (fun k => decide (k ∈ l1)) := by
  apply sorted_eq_of_mem_iff (h1.filter _) (h2.filter _)
  intro x
  simp only [List.mem_filter, decide_eq_true_iff]
  tauto

/-- With `small_is_a = false` the kernel stores the same pairs with the A/B
roles exchanged. -/
lemma rowMapAux_flip (big : List RowKey) (n : Nat) :
    ∀ (small : List RowKey) (i0 : Nat),
      rowMapAux big n false small i0 =
        (rowMapAux big n true small i0).map (fun t => (t.1, t.2.2, t.2.1)) := by
  intro small
  induction small with
  | nil => intro i0; rfl
  | cons k rest ih =>
    intro i0
    show (if 0 ≤ findRowByYZ big n k.y k.z then _ else _) = _
    by_cases hf : 0 ≤ findRowByYZ big n k.y k.z
    · simp only [hf, if_pos]
      show _ = List.map _ (if 0 ≤ findRowByYZ big n k.y k.z then _ else _)
      simp only [hf, if_pos, List.map_cons]
      rw [ih (i0 + 1)]
      simp only [Bool.false_eq_true, if_false]
    · simp only [hf, if_neg, if_false]
      show _ = List.map _ (if 0 ≤ findRowByYZ big n k.y k.z then _ else _)
      simp only [hf, if_neg, if_false]
      exact ih (i0 + 1)

/-- Canonical form of the driving loop over a sorted searched side: the
matched triples are the common keys, in driving order, paired with the
driving position and the index found in the searched side. -/
lemma rowMapAux_true_eq (big : List RowKey)
    (hbig : List.Pairwise (fun a b => rowKeyLtB a b = true) big) :
    ∀ (small : List RowKey), small.Nodup → ∀ i0 : Nat,
      rowMapAux big big.length true small i0 =
        (small.filter (fun k => decide (k ∈ big))).map
          (fun k => (k, i0 + small.indexOf k, big.indexOf k)) := by
  intro small
  induction small with
  | nil => intro _ i0; rfl
  | cons k rest ih =>
    intro hnd i0
    obtain ⟨hknr, hndr⟩ := List.nodup_cons.1 hnd
    show (if 0 ≤ findRowByYZ big big.length k.y k.z then _ else _) = _
    by_cases hmem : k ∈ big
    · have hfind := findRowByYZ_found big hbig k hmem
      have hge : (0 : Int) ≤ Int.ofNat (big.indexOf k) := Int.ofNat_nonneg _
      rw [hfind, if_pos hge]
      rw [List.filter_cons_of_pos (by simpa using hmem), List.map_cons]
      congr 1
      · simp [List.indexOf_cons_self]
      · rw [ih hndr (i0 + 1)]
        apply List.map_congr_left
        intro k' hk'
        have hk'r : k' ∈ rest := (List.mem_filter.1 hk').1
        have hne : k ≠ k' := fun h => hknr (h ▸ hk'r)
        rw [List.indexOf_cons_ne rest hne]
        simp [Nat.succ_eq_add_one, Nat.add_assoc, Nat.add_comm, Nat.add_left_comm]
    · have hfind : findRowByYZ big big.length k.y k.z = -1 :=
        findRowByYZ_not_found big k.y k.z hmem
      rw [hfind, if_neg (by omega : ¬((0:Int) ≤ -1))]
      rw [List.filter_cons_of_neg (by simpa using hmem)]
      rw [ih hndr (i0 + 1)]
      apply List.map_congr_left
      intro k' hk'
      have hk'r : k' ∈ rest := (List.mem_filter.1 hk').1
      have hne : k ≠ k' := fun h => hknr (h ▸ hk'r)
      rw [List.indexOf_cons_ne rest hne]
      simp [Nat.succ_eq_add_one, Nat.add_assoc, Nat.add_comm, Nat.add_left_comm]

/-- The whole row-mapping phase computes, regardless of which side drives
the loop, the sorted common keys with their indices in A and in B. -/
lemma rowMap_canonical (A B : Mesh) (hA : wf A) (hB : wf B) :
    rowMap A B = (A.rowKeys.filter (fun k => decide (k ∈ B.rowKeys))).map
      (fun k => (k, A.rowKeys.indexOf k, B.rowKeys.indexOf k)) := by
  have hpA := hA.1
  have hpB := hB.1
  unfold rowMap
  by_cases hle : A.numRows ≤ B.numRows
  · simp only [hle, decide_True, if_true]
    rw [show B.numRows = B.rowKeys.length from rfl,
      rowMapAux_true_eq B.rowKeys hpB A.rowKeys (sortedKeys_nodup hpA) 0]
    apply List.map_congr_left
    intro k _
    simp
  · simp only [hle, decide_False, Bool.false_eq_true, if_false]
    rw [show A.numRows = A.rowKeys.length from rfl, rowMapAux_flip,
      rowMapAux_true_eq A.rowKeys hpA B.rowKeys (sortedKeys_nodup hpB) 0,
      List.map_map, sorted_filter_comm hpB hpA]
    apply List.map_congr_left
    intro k _
    simp

/-- Swapping the mesh arguments flips the stored index pairs. -/
lemma rowMap_comm (A B : Mesh) (hA : wf A) (hB : wf B) :
    rowMap B A = (rowMap A B).map (fun t => (t.1, t.2.2, t.2.1)) := by
  have hpA := hA.1
  have hpB := hB.1
  rw [rowMap_canonical B A hB hA, rowMap_canonical A B hA hB,
    sorted_filter_comm hpB hpA, List.map_map]
  apply List.map_congr_left
  intro k _
  simp

/-- Mapping a mesh against itself matches every row with itself. -/
lemma rowMap_self (A : Mesh) (hA : wf A) :
    rowMap A A = A.rowKeys.map
      (fun k => (k, A.rowKeys.indexOf k, A.rowKeys.indexOf k)) := by
  rw [rowMap_canonical A A hA hA]
  congr 1
  apply List.filter_eq_self.2
  intro k hk
  simpa using hk

/-- A map over a duplicate-free list that only uses the position of each
element equals the corresponding map over positions. -/
lemma map_indexOf_eq_range_map {β : Type} (l : List RowKey) (hnd : l.Nodup)
    (f : Nat → β) :
    l.map (fun k => f (l.indexOf k)) = (List.range l.length).map f := by
  apply List.ext_get
  · simp
  · intro i h1 h2
    simp only [List.get_map]
    rw [List.get_indexOf hnd]
    congr 1
    simp [List.get_range]

/-- Every matched triple stores valid indices that both resolve to the
matched key. -/
lemma rowMap_mem_sound (A B : Mesh) (hA : wf A) (hB : wf B) :
    ∀ t ∈ rowMap A B,
      t.2.1 < A.numRows ∧ A.rowKeys.getD t.2.1 ⟨0, 0⟩ = t.1 ∧
      t.2.2 < B.numRows ∧ B.rowKeys.getD t.2.2 ⟨0, 0⟩ = t.1 := by
  intro t ht
  rw [rowMap_canonical A B hA hB] at ht
  obtain ⟨k, hk, rfl⟩ := List.mem_map.1 ht
  have hkA : k ∈ A.rowKeys := (List.mem_filter.1 hk).1
  have hkB : k ∈ B.rowKeys := by
    have := (List.mem_filter.1 hk).2
    simpa using this
  have hlA : A.rowKeys.indexOf k < A.rowKeys.length := List.indexOf_lt_length.2 hkA
  have hlB : B.rowKeys.indexOf k < B.rowKeys.length := List.indexOf_lt_length.2 hkB
  refine ⟨hlA, ?_, hlB, ?_⟩
  · rw [List.getD_eq_getElem _ _ hlA]
    simpa using List.indexOf_get hlA
  · rw [List.getD_eq_getElem _ _ hlB]
    simpa using List.indexOf_get hlB

/-- The COUNT kernel body is symmetric in the two meshes. -/
lemma rowCountOf_comm (A B : Mesh) (ia ib : Nat) :
    rowCountOf B A ib ia = rowCountOf A B ia ib := by
  unfold rowCountOf
  simp only []
  by_cases hg : A.rowPtr.getD ia 0 = A.rowPtr.getD (ia + 1) 0 ∨
      B.rowPtr.getD ib 0 = B.rowPtr.getD (ib + 1) 0
  · rw [if_pos hg.symm, if_pos hg]
  · rw [if_neg (fun hc => hg hc.symm), if_neg hg,
      count_eq_emit_length, count_eq_emit_length, emit_comm]

/-- The FILL kernel body is symmetric in the two meshes. -/
lemma rowEmitOf_comm (A B : Mesh) (ia ib : Nat) :
    rowEmitOf B A ib ia = rowEmitOf A B ia ib := by
  unfold rowEmitOf
  simp only []
  by_cases hg : A.rowPtr.getD ia 0 = A.rowPtr.getD (ia + 1) 0 ∨
      B.rowPtr.getD ib 0 = B.rowPtr.getD (ib + 1) 0
  · rw [if_pos hg.symm, if_pos hg]
  · rw [if_neg (fun hc => hg hc.symm), if_neg hg, emit_comm]

/-- The engine phases after row mapping are symmetric in the two meshes once
the matched index pairs are flipped accordingly. -/
lemma intersectPipeline_comm (A B : Mesh) (matched : List (RowKey × Nat × Nat)) :
    intersectPipeline B A (matched.map (fun t => (t.1, t.2.2, t.2.1))) =
      intersectPipeline A B matched := by
  unfold intersectPipeline
  have hcounts : rowCounts B A (matched.map (fun t => (t.1, t.2.2, t.2.1))) =
      rowCounts A B matched := by
    unfold rowCounts
    rw [List.map_map]
    apply List.map_congr_left
    intro t _
    exact rowCountOf_comm A B t.2.1 t.2.2
  have hemits : (matched.map (fun t => (t.1, t.2.2, t.2.1))).map
        (fun m => rowEmitOf B A m.2.1 m.2.2) =
      matched.map (fun m => rowEmitOf A B m.2.1 m.2.2) := by
    rw [List.map_map]
    apply List.map_congr_left
    intro t _
    exact rowEmitOf_comm A B t.2.1 t.2.2
  have hkeys : (matched.map (fun t => (t.1, t.2.2, t.2.1))).map (·.1) =
      matched.map (·.1) := by
    rw [List.map_map]
    rfl
  have hfill : fillPhase B A (matched.map (fun t => (t.1, t.2.2, t.2.1)))
        (csrScan (rowCounts A B matched)) (B.numIntervals + A.numIntervals) =
      fillPhase A B matched (csrScan (rowCounts A B matched))
        (A.numIntervals + B.numIntervals) := by
    unfold fillPhase
    rw [hemits, Nat.add_comm B.numIntervals A.numIntervals]
  simp only [List.length_map, hcounts, hkeys]
  by_cases h0 : matched.length = 0
  · simp [h0]
  · simp only [h0, if_neg, if_false]
    by_cases ht : (rowCounts A B matched).sum = 0
    · simp [ht]
    · simp only [ht, if_neg, if_false, hfill]

/-! ### Lemmas about the CSR layout, the scan and the fill -/

lemma pairwise_le_getD {p : List Nat} (h : List.Pairwise (· ≤ ·) p)
    {i j : Nat} (hij : i ≤ j) (hj : j < p.length) :
    p.getD i 0 ≤ p.getD j 0 := by
  rcases Nat.eq_or_lt_of_le hij with rfl | hlt
  · exact le_refl _
  · have hi : i < p.length := lt_trans hlt hj
    rw [List.getD_eq_getElem p _ hi, List.getD_eq_getElem p _ hj]
    exact List.pairwise_iff_get.1 h ⟨i, hi⟩ ⟨j, hj⟩ hlt

lemma scanl_add_getD :
    ∀ (l : List Nat) (a i : Nat), i ≤ l.length →
      (List.scanl (· + ·) a l).getD i 0 = a + (l.take i).sum := by
  intro l
  induction l with
  | nil =>
    intro a i h
    have hi : i = 0 := by simpa using h
    subst hi
    simp [List.scanl]
  | cons x t ih =>
    intro a i h
    rw [List.scanl_cons]
    cases i with
    | zero => simp
    | succ i =>
      simp only [List.singleton_append, List.getD_cons_succ]
      rw [ih (a + x) i (by simpa using h)]
      simp [Nat.add_assoc]

lemma csrScan_getD (counts : List Nat) (i : Nat) (h : i ≤ counts.length) :
    (csrScan counts).getD i 0 = (counts.take i).sum := by
  unfold csrScan
  rw [scanl_add_getD counts 0 i h, Nat.zero_add]

lemma csrScan_length (counts : List Nat) :
    (csrScan counts).length = counts.length + 1 := by
  unfold csrScan
  exact List.length_scanl 0 counts

lemma csrScan_last (counts : List Nat) :
    (csrScan counts).getD counts.length 0 = counts.sum := by
  rw [csrScan_getD counts _ (le_refl _), List.take_length]

lemma csrScan_head (counts : List Nat) : (csrScan counts).getD 0 0 = 0 := by
  rw [csrScan_getD counts 0 (by omega)]
  simp

lemma csrScan_diff (counts : List Nat) (i : Nat) (h : i < counts.length) :
    (csrScan counts).getD (i + 1) 0 =
      (csrScan counts).getD i 0 + counts.getD i 0 := by
  rw [csrScan_getD counts i (by omega), csrScan_getD counts (i + 1) (by omega),
    List.sum_take_succ counts i h, List.getD_eq_getElem counts _ h]

lemma csrScan_chain (counts : List Nat) : List.Chain' (· ≤ ·) (csrScan counts) := by
  unfold csrScan
  generalize (0 : Nat) = a
  induction counts generalizing a with
  | nil => simp
  | cons x t ih =>
    rw [List.scanl_cons, List.singleton_append]
    apply List.chain'_cons'.2
    refine ⟨?_, ih (a + x)⟩
    intro y hy
    cases t with
    | nil => simp [List.scanl] at hy; omega
    | cons z u =>
      rw [List.scanl_cons, List.singleton_append] at hy
      simp at hy
      omega

/-- When every per-row count is positive, the compaction keeps every row. -/
lemma keptIdx_eq_range (counts : List Nat)
    (hpos : ∀ i, i < counts.length → 0 < counts.getD i 0) :
    (List.range counts.length).filter (fun i =>
      (csrScan counts).getD i 0 < (csrScan counts).getD (i + 1) 0) =
      List.range counts.length := by
  apply List.filter_eq_self.2
  intro i hi
  have hilt : i < counts.length := List.mem_range.1 hi
  rw [csrScan_diff counts i hilt]
  have := hpos i hilt
  simp only [decide_eq_true_iff]
  omega

lemma take_glue {α : Type} (l : List α) (b c : Nat) (hbc : b ≤ c) :
    l.take b ++ (l.take c).drop b = l.take c := by
  conv_rhs => rw [← List.take_append_drop b (l.take c)]
  rw [List.take_take, min_eq_left hbc]

/-- Concatenating the row slices of a CSR reconstructs the interval prefix
up to the `n`-th offset. -/
lemma flatten_slices (l : List Interval) (p : List Nat)
    (h0 : p.getD 0 0 = 0) (hmono : List.Pairwise (· ≤ ·) p) :
    ∀ n, n + 1 ≤ p.length →
      ((List.range n).map (fun r => rowSlice l p r)).flatten =
        l.take (p.getD n 0) := by
  intro n
  induction n with
  | zero =>
    intro _
    rw [List.range_zero, List.map_nil, List.flatten_nil, h0, List.take_zero]
  | succ n ih =>
    intro hlen
    rw [List.range_succ, List.map_append, List.flatten_append, ih (by omega)]
    simp only [List.map_cons, List.map_nil, List.flatten_cons, List.flatten_nil,
      List.append_nil]
    unfold rowSlice
    exact take_glue l _ _ (pairwise_le_getD hmono (by omega) (by omega))

lemma rowSlice_length (l : List Interval) (p : List Nat) (i : Nat)
    (hb : p.getD i 0 ≤ p.getD (i + 1) 0) (he : p.getD (i + 1) 0 ≤ l.length) :
    (rowSlice l p i).length = p.getD (i + 1) 0 - p.getD i 0 := by
  unfold rowSlice
  rw [List.length_drop, List.length_take]
  omega

lemma writeSeg_length (init s : List Interval) (a : Nat)
    (h : a + s.length ≤ init.length) :
    (writeSeg init a s).length = init.length := by
  unfold writeSeg
  simp only [List.length_append, List.length_take, List.length_drop]
  omega

/-- The FILL kernel writes each emitted run at its scanned offset; the
resulting array is the untouched prefix, the concatenated runs, and the
untouched suffix. -/
lemma foldl_writeSeg :
    ∀ (segs : List (List Interval)) (init : List Interval) (a : Nat),
      a + (segs.map List.length).sum ≤ init.length →
      (((segs.map List.length).scanl (· + ·) a).zip segs).foldl
        (fun arr p => writeSeg arr p.1 p.2) init =
        init.take a ++ segs.flatten ++ init.drop (a + (segs.map List.length).sum) := by
  intro segs
  induction segs with
  | nil =>
    intro init a h
    simp only [List.map_nil, List.sum_nil, Nat.add_zero]
    show init = init.take a ++ [] ++ init.drop a
    rw [List.append_nil, List.take_append_drop]
  | cons s rest ih =>
    intro init a h
    simp only [List.map_cons, List.sum_cons] at h
    rw [List.map_cons, List.scanl_cons, List.singleton_append,
      List.zip_cons_cons, List.foldl_cons]
    have hbound : a + s.length + ((rest.map List.length).sum) ≤
        (writeSeg init a s).length := by
      rw [writeSeg_length init s a (by omega)]
      omega
    rw [ih (writeSeg init a s) (a + s.length) hbound]
    have hw : writeSeg init a s = (init.take a ++ s) ++ init.drop (a + s.length) := by
      unfold writeSeg
      rw [List.append_assoc]
    have hlen_pre : (init.take a ++ s).length = a + s.length := by
      simp only [List.length_append, List.length_take]
      omega
    have hw_take : (writeSeg init a s).take (a + s.length) = init.take a ++ s := by
      rw [hw, ← hlen_pre, List.take_left]
    have hw_drop : ∀ x : Nat, (writeSeg init a s).drop (a + s.length + x) =
        init.drop (a + s.length + x) := by
      intro x
      rw [hw, show a + s.length + x = (init.take a ++ s).length + x by omega,
        List.drop_append, List.drop_drop]
      congr 1
      omega
    rw [hw_take, hw_drop]
    simp only [List.flatten_cons, List.append_assoc, Nat.add_assoc, List.sum_cons]

/-- The COUNT kernel returns exactly the length of what the FILL kernel
writes for the same row. -/
lemma rowCountOf_eq_emit_length (A B : Mesh) (ia ib : Nat) :
    rowCountOf A B ia ib = (rowEmitOf A B ia ib).length := by
  unfold rowCountOf rowEmitOf
  simp only []
  split
  · rfl
  · exact count_eq_emit_length _ _

lemma rowCounts_eq_lengths (A B : Mesh) (matched : List (RowKey × Nat × Nat)) :
    rowCounts A B matched =
      (matched.map (fun m => rowEmitOf A B m.2.1 m.2.2)).map List.length := by
  unfold rowCounts
  rw [List.map_map]
  apply List.map_congr_left
  intro t _
  exact rowCountOf_eq_emit_length A B t.2.1 t.2.2

/-- Content of the filled output interval array: the concatenation of the
per-row emitted runs, padded with the zero-initialised remainder. -/
lemma fillPhase_eq (A B : Mesh) (matched : List (RowKey × Nat × Nat)) (cap : Nat)
    (hcap : (rowCounts A B matched).sum ≤ cap) :
    fillPhase A B matched (csrScan (rowCounts A B matched)) cap =
      (matched.map (fun m => rowEmitOf A B m.2.1 m.2.2)).flatten ++
        (List.replicate cap (⟨0, 0⟩ : Interval)).drop
          ((rowCounts A B matched).sum) := by
  unfold fillPhase csrScan
  rw [rowCounts_eq_lengths A B matched] at hcap ⊢
  rw [foldl_writeSeg _ _ 0 (by simpa using hcap)]
  simp only [List.take_zero, List.nil_append, Nat.zero_add]

/-- The logical output intervals (`take total` of the filled array) are the
concatenated emitted runs. -/
lemma fill_take_total (A B : Mesh) (matched : List (RowKey × Nat × Nat)) (cap : Nat)
    (hcap : (rowCounts A B matched).sum ≤ cap) :
    (fillPhase A B matched (csrScan (rowCounts A B matched)) cap).take
        ((rowCounts A B matched).sum) =
      (matched.map (fun m => rowEmitOf A B m.2.1 m.2.2)).flatten := by
  rw [fillPhase_eq A B matched cap hcap]
  have hlen : (rowCounts A B matched).sum =
      ((matched.map (fun m => rowEmitOf A B m.2.1 m.2.2)).flatten).length := by
    rw [rowCounts_eq_lengths A B matched, List.length_flatten]
  rw [hlen, List.take_left]

/-! ### Self-intersection (idempotence) -/

/-- A well-formed mesh with no rows is the canonical empty mesh. -/
lemma wf_empty_of_numRows_zero (m : Mesh) (h : wf m) (h0 : m.numRows = 0) :
    m = Mesh.empty := by
  obtain ⟨h1, h2, h3, h4, h5, h6, h7⟩ := h
  have hkeys : m.rowKeys = [] := List.length_eq_zero.1 h0
  have hp : m.rowPtr.length = 1 := by rw [h2, h0]
  obtain ⟨x, hx⟩ : ∃ x, m.rowPtr = [x] := by
    cases hpl : m.rowPtr with
    | nil => rw [hpl] at hp; simp at hp
    | cons a t =>
      cases t with
      | nil => exact ⟨a, rfl⟩
      | cons b u => rw [hpl] at hp; simp at hp
  have hx0 : x = 0 := by
    rw [hx] at h3
    simpa using h3
  subst hx0
  have hint : m.intervals = [] := by
    rw [h0, hx] at h4
    have : m.numIntervals = 0 := by simpa using h4.symm
    exact List.length_eq_zero.1 this
  cases m with
  | mk ks ps is =>
    have e1 : ks = [] := hkeys
    have e2 : ps = [0] := hx
    have e3 : is = [] := hint
    subst e1
    subst e2
    subst e3
    rfl

lemma rowPtr_getD_le_intervals (m : Mesh) (h : wf m) (r : Nat) (hr : r ≤ m.numRows) :
    m.rowPtr.getD r 0 ≤ m.numIntervals := by
  obtain ⟨h1, h2, h3, h4, h5, h6, h7⟩ := h
  have := pairwise_le_getD (h5) hr (by omega)
  omega

lemma rowSlice_length_wf (m : Mesh) (h : wf m) (r : Nat) (hr : r < m.numRows) :
    (rowSlice m.intervals m.rowPtr r).length =
      m.rowPtr.getD (r + 1) 0 - m.rowPtr.getD r 0 := by
  apply rowSlice_length
  · exact pairwise_le_getD (h.2.2.2.2.1) (by omega)
      (by rw [h.2.1]; omega)
  · exact rowPtr_getD_le_intervals m h (r + 1) (by omega)

/-- COUNT of a row against itself is the row length. -/
lemma rowCountOf_self (A : Mesh) (h : wf A) (i : Nat) (hi : i < A.numRows) :
    rowCountOf A A i i = A.rowPtr.getD (i + 1) 0 - A.rowPtr.getD i 0 := by
  unfold rowCountOf
  simp only []
  by_cases hg : A.rowPtr.getD i 0 = A.rowPtr.getD (i + 1) 0
  · rw [if_pos (Or.inl hg)]
    omega
  · rw [if_neg (by tauto)]
    rw [count_eq_emit_length, emit_self _ (h.2.2.2.2.2.1 i hi),
      rowSlice_length_wf A h i hi]

/-- EMIT of a row against itself is the row itself. -/
lemma rowEmitOf_self (A : Mesh) (h : wf A) (i : Nat) (hi : i < A.numRows) :
    rowEmitOf A A i i = rowSlice A.intervals A.rowPtr i := by
  unfold rowEmitOf
  simp only []
  by_cases hg : A.rowPtr.getD i 0 = A.rowPtr.getD (i + 1) 0
  · rw [if_pos (Or.inl hg)]
    have : (rowSlice A.intervals A.rowPtr i).length = 0 := by
      rw [rowSlice_length_wf A h i hi]
      omega
    exact (List.length_eq_zero.1 this).symm
  · rw [if_neg (by tauto)]
    exact emit_self _ (h.2.2.2.2.2.1 i hi)

lemma sum_range_diffs (p : List Nat) (hmono : List.Pairwise (· ≤ ·) p)
    (h0 : p.getD 0 0 = 0) :
    ∀ n, n < p.length →
      ((List.range n).map (fun i => p.getD (i + 1) 0 - p.getD i 0)).sum =
        p.getD n 0 := by
  intro n
  induction n with
  | zero =>
    intro _
    simp only [List.range_zero, List.map_nil, List.sum_nil]
    exact h0.symm
  | succ n ih =>
    intro hlen
    rw [List.range_succ, List.map_append, List.sum_append, ih (by omega)]
    have hle := pairwise_le_getD hmono (show n ≤ n + 1 by omega)
      (show n + 1 < p.length by omega)
    simp only [List.map_cons, List.map_nil, List.sum_cons, List.sum_nil]
    omega

/-- Scanning the consecutive differences of a monotone zero-based offset
array reproduces the array. -/
lemma csrScan_diffs_eq (p : List Nat) (n : Nat) (hlen : p.length = n + 1)
    (h0 : p.getD 0 0 = 0) (hmono : List.Pairwise (· ≤ ·) p) :
    csrScan ((List.range n).map (fun i => p.getD (i + 1) 0 - p.getD i 0)) = p := by
  apply List.ext_get
  · rw [csrScan_length]
    simp [hlen]
  · intro i h1 h2
    have hi : i ≤ n := by
      rw [csrScan_length] at h1
      simp at h1
      omega
    rw [← List.getD_eq_get _ 0, ← List.getD_eq_get _ 0]
    rw [csrScan_getD _ _ (by simp [hi])]
    rw [← List.map_take, List.take_range, min_eq_left hi]
    exact sum_range_diffs p hmono h0 i (by omega)

/-- Idempotence: intersecting a well-formed mesh with itself returns it
unchanged, structurally. -/
lemma intersect_self_eq (A : Mesh) (h : wf A) : intersectMeshes A A = A := by
  by_cases h0 : A.numRows = 0
  · rw [wf_empty_of_numRows_zero A h h0]
    rfl
  · unfold intersectMeshes
    rw [if_neg (by tauto)]
    have hnd : A.rowKeys.Nodup := sortedKeys_nodup (h.1)
    have hmap := rowMap_self A h
    have hmono := h.2.2.2.2.1
    have hmatched_counts : rowCounts A A (rowMap A A) =
        (List.range A.numRows).map
          (fun i => A.rowPtr.getD (i + 1) 0 - A.rowPtr.getD i 0) := by
      unfold rowCounts
      rw [hmap, List.map_map]
      show A.rowKeys.map
          (fun k => rowCountOf A A (A.rowKeys.indexOf k) (A.rowKeys.indexOf k)) = _
      rw [map_indexOf_eq_range_map A.rowKeys hnd (fun i => rowCountOf A A i i)]
      apply List.map_congr_left
      intro i hi
      exact rowCountOf_self A h i (List.mem_range.1 hi)
    have hmatched_emits : (rowMap A A).map (fun m => rowEmitOf A A m.2.1 m.2.2) =
        (List.range A.numRows).map (fun i => rowSlice A.intervals A.rowPtr i) := by
      rw [hmap, List.map_map]
      show A.rowKeys.map
          (fun k => rowEmitOf A A (A.rowKeys.indexOf k) (A.rowKeys.indexOf k)) = _
      rw [map_indexOf_eq_range_map A.rowKeys hnd (fun i => rowEmitOf A A i i)]
      apply List.map_congr_left
      intro i hi
      exact rowEmitOf_self A h i (List.mem_range.1 hi)
    have hlen_matched : (rowMap A A).length = A.numRows := by
      rw [hmap, List.length_map]
      rfl
    have htotal : (rowCounts A A (rowMap A A)).sum = A.numIntervals := by
      rw [hmatched_counts,
        sum_range_diffs A.rowPtr hmono h.2.2.1 A.numRows (by rw [h.2.1]; omega),
        h.2.2.2.1]
    have hscan : csrScan (rowCounts A A (rowMap A A)) = A.rowPtr := by
      rw [hmatched_counts]
      exact csrScan_diffs_eq A.rowPtr A.numRows h.2.1 h.2.2.1 hmono
    have hkeys : (rowMap A A).map (·.1) = A.rowKeys := by
      rw [hmap, List.map_map]
      show A.rowKeys.map (fun k => k) = A.rowKeys
      exact List.map_id' _
    have hintervals_pos : ¬(A.numIntervals = 0) := by
      have h4 := h.2.2.2.2.2.2 0 (by omega)
      simp only [Nat.zero_add] at h4
      have hle := rowPtr_getD_le_intervals A h 1 (by omega)
      have h00 := h.2.2.1
      omega
    have hfill : (fillPhase A A (rowMap A A) A.rowPtr
        (A.numIntervals + A.numIntervals)).take A.numIntervals = A.intervals := by
      rw [← hscan, ← htotal,
        fill_take_total A A (rowMap A A) _ (by rw [htotal]; omega),
        hmatched_emits,
        flatten_slices A.intervals A.rowPtr h.2.2.1 hmono A.numRows (by rw [h.2.1]),
        h.2.2.2.1]
      exact List.take_length _
    have hkept : (List.range A.numRows).filter (fun i =>
        A.rowPtr.getD i 0 < A.rowPtr.getD (i + 1) 0) = List.range A.numRows := by
      apply List.filter_eq_self.2
      intro i hi
      simpa using h.2.2.2.2.2.2 i (List.mem_range.1 hi)
    unfold intersectPipeline
    simp only [hlen_matched, hscan, htotal, hkeys, hkept, List.length_range]
    rw [if_neg h0, if_neg hintervals_pos, if_pos trivial, hfill]

/-! ### Commutativity, absorption, disjoint inputs -/

/-- Structural commutativity of the full engine on well-formed inputs. -/
lemma intersect_comm_eq (A B : Mesh) (hA : wf A) (hB : wf B) :
    intersectMeshes A B = intersectMeshes B A := by
  unfold intersectMeshes
  by_cases h0 : A.numRows = 0 ∨ B.numRows = 0
  · rw [if_pos h0, if_pos h0.symm]
  · rw [if_neg h0, if_neg (fun hc => h0 hc.symm)]
    rw [rowMap_comm A B hA hB]
    exact (intersectPipeline_comm A B (rowMap A B)).symm

lemma coversB_iff (l : List Interval) (x : Int) :
    coversB l x = true ↔ ∃ iv ∈ l, iv.lo ≤ x ∧ x < iv.hi := by
  unfold coversB
  rw [List.any_eq_true]
  constructor
  · rintro ⟨iv, hiv, hx⟩
    exact ⟨iv, hiv, by simpa using hx⟩
  · rintro ⟨iv, hiv, hx⟩
    exact ⟨iv, hiv, by simpa using hx⟩

lemma memB_iff (m : Mesh) (x y z : Int) :
    memB m x y z = true ↔ ∃ r, r < m.numRows ∧ m.rowKeys.getD r ⟨0, 0⟩ = ⟨y, z⟩ ∧
      coversB (rowSlice m.intervals m.rowPtr r) x = true := by
  unfold memB
  rw [List.any_eq_true]
  constructor
  · rintro ⟨r, hr, hx⟩
    rw [Bool.and_eq_true, beq_iff_eq] at hx
    exact ⟨r, List.mem_range.1 hr, hx.1, hx.2⟩
  · rintro ⟨r, hr, hk, hc⟩
    exact ⟨r, List.mem_range.2 hr, by rw [Bool.and_eq_true, beq_iff_eq]; exact ⟨hk, hc⟩⟩

/-- If the cell sets of two well-formed meshes are disjoint, every matched
row has an empty interval intersection. -/
lemma rowCountOf_zero_of_disjoint (A B : Mesh) (hA : wf A) (hB : wf B)
    (hdisj : ∀ x y z : Int, ¬(memB A x y z = true ∧ memB B x y z = true)) :
    ∀ t ∈ rowMap A B, rowCountOf A B t.2.1 t.2.2 = 0 := by
  intro t ht
  obtain ⟨hia, hka, hib, hkb⟩ := rowMap_mem_sound A B hA hB t ht
  by_contra hne
  unfold rowCountOf at hne
  simp only [] at hne
  have hguard : ¬(A.rowPtr.getD t.2.1 0 = A.rowPtr.getD (t.2.1 + 1) 0 ∨
      B.rowPtr.getD t.2.2 0 = B.rowPtr.getD (t.2.2 + 1) 0) := by
    intro hg
    rw [if_pos hg] at hne
    exact hne rfl
  rw [if_neg hguard, count_eq_emit_length] at hne
  have hnil : rowIntersectionEmit (rowSlice A.intervals A.rowPtr t.2.1)
      (rowSlice B.intervals B.rowPtr t.2.2) ≠ [] := by
    intro hcon
    rw [hcon] at hne
    exact hne rfl
  obtain ⟨c, hc⟩ := List.exists_mem_of_ne_nil _ hnil
  have hrunA := hA.2.2.2.2.2.1 t.2.1 hia
  have hrunB := hB.2.2.2.2.2.1 t.2.2 hib
  obtain ⟨a, ha, b, hb, hlt, rfl⟩ :=
    (emit_mem_iff _ (rowSlice A.intervals A.rowPtr t.2.1)
      (rowSlice B.intervals B.rowPtr t.2.2) (le_refl _) hrunA hrunB c).1 hc
  apply hdisj (interBegin a b) t.1.y t.1.z
  constructor
  · rw [memB_iff]
    refine ⟨t.2.1, hia, by rw [hka], ?_⟩
    rw [coversB_iff]
    exact ⟨a, ha, left_le_interBegin a b, lt_of_lt_of_le hlt (interEnd_le_left a b)⟩
  · rw [memB_iff]
    refine ⟨t.2.2, hib, by rw [hkb], ?_⟩
    rw [coversB_iff]
    exact ⟨b, hb, right_le_interBegin a b, lt_of_lt_of_le hlt (interEnd_le_right a b)⟩

/-- Disjoint well-formed inputs produce the canonical empty mesh: either no
row matches (`R == 0`) or every matched row counts zero (`total == 0`). -/
lemma intersect_disjoint_eq_empty (A B : Mesh) (hA : wf A) (hB : wf B)
    (hdisj : ∀ x y z : Int, ¬(memB A x y z = true ∧ memB B x y z = true)) :
    intersectMeshes A B = Mesh.empty := by
  unfold intersectMeshes
  by_cases h0 : A.numRows = 0 ∨ B.numRows = 0
  · rw [if_pos h0]
  · rw [if_neg h0]
    unfold intersectPipeline
    by_cases hm : (rowMap A B).length = 0
    · simp only [hm, if_pos]
    · have hsum : (rowCounts A B (rowMap A B)).sum = 0 := by
        apply List.sum_eq_zero
        intro c hc
        obtain ⟨t, ht, rfl⟩ := List.mem_map.1 hc
        exact rowCountOf_zero_of_disjoint A B hA hB hdisj t ht
      simp only [hm, if_neg, if_false, hsum, if_pos]

/-! ### Worst-case output size -/

/-- The row slices of a well-formed mesh partition its interval array, so
their lengths sum to `num_intervals`. -/
lemma slice_lengths_sum (M : Mesh) (h : wf M) :
    (M.rowKeys.map (fun k =>
      (rowSlice M.intervals M.rowPtr (M.rowKeys.indexOf k)).length)).sum =
      M.numIntervals := by
  rw [map_indexOf_eq_range_map M.rowKeys (sortedKeys_nodup (h.1))
    (fun i => (rowSlice M.intervals M.rowPtr i).length)]
  have hrw : (List.range M.rowKeys.length).map
      (fun i => (rowSlice M.intervals M.rowPtr i).length) =
      (List.range M.numRows).map
        (fun i => M.rowPtr.getD (i + 1) 0 - M.rowPtr.getD i 0) := by
    apply List.map_congr_left
    intro i hi
    exact rowSlice_length_wf M h i (List.mem_range.1 hi)
  rw [hrw, sum_range_diffs M.rowPtr (h.2.2.2.2.1)
    h.2.2.1 M.numRows (by rw [h.2.1]; omega), h.2.2.2.1]

/-- A per-row count never exceeds the total length of the two slices. -/
lemma rowCountOf_le_slices (A B : Mesh) (ia ib : Nat) :
    rowCountOf A B ia ib ≤ (rowSlice A.intervals A.rowPtr ia).length +
      (rowSlice B.intervals B.rowPtr ib).length := by
  unfold rowCountOf
  simp only []
  split
  · omega
  · have := count_le (rowSlice A.intervals A.rowPtr ia)
      (rowSlice B.intervals B.rowPtr ib)
    omega

/-- The total number of output intervals is bounded by the worst-case
capacity `A.num_intervals + B.num_intervals` used for the allocation. -/
lemma total_le_capacity (A B : Mesh) (hA : wf A) (hB : wf B) :
    (rowCounts A B (rowMap A B)).sum ≤ A.numIntervals + B.numIntervals := by
  have hpA := hA.1
  have hpB := hB.1
  unfold rowCounts
  rw [rowMap_canonical A B hA hB, List.map_map]
  have hsubA : (A.rowKeys.filter (fun k => decide (k ∈ B.rowKeys))).Sublist
      A.rowKeys := List.filter_sublist _
  have hsubB : (A.rowKeys.filter (fun k => decide (k ∈ B.rowKeys))).Sublist
      B.rowKeys := by
    rw [sorted_filter_comm hpA hpB]
    exact List.filter_sublist _
  have hstep1 : ((A.rowKeys.filter (fun k => decide (k ∈ B.rowKeys))).map
      ((fun m => rowCountOf A B m.2.1 m.2.2) ∘
        (fun k => (k, A.rowKeys.indexOf k, B.rowKeys.indexOf k)))).sum ≤
      ((A.rowKeys.filter (fun k => decide (k ∈ B.rowKeys))).map (fun k =>
        (rowSlice A.intervals A.rowPtr (A.rowKeys.indexOf k)).length +
        (rowSlice B.intervals B.rowPtr (B.rowKeys.indexOf k)).length)).sum := by
    apply List.sum_le_sum
    intro k _
    exact rowCountOf_le_slices A B (A.rowKeys.indexOf k) (B.rowKeys.indexOf k)
  have hstep2 : ((A.rowKeys.filter (fun k => decide (k ∈ B.rowKeys))).map (fun k =>
      (rowSlice A.intervals A.rowPtr (A.rowKeys.indexOf k)).length +
      (rowSlice B.intervals B.rowPtr (B.rowKeys.indexOf k)).length)).sum =
      ((A.rowKeys.filter (fun k => decide (k ∈ B.rowKeys))).map (fun k =>
        (rowSlice A.intervals A.rowPtr (A.rowKeys.indexOf k)).length)).sum +
      ((A.rowKeys.filter (fun k => decide (k ∈ B.rowKeys))).map (fun k =>
        (rowSlice B.intervals B.rowPtr (B.rowKeys.indexOf k)).length)).sum :=
    List.sum_map_add
  have hstep3 : ((A.rowKeys.filter (fun k => decide (k ∈ B.rowKeys))).map (fun k =>
      (rowSlice A.intervals A.rowPtr (A.rowKeys.indexOf k)).length)).sum ≤
      A.numIntervals := by
    rw [← slice_lengths_sum A hA]
    exact List.Sublist.sum_le_sum (hsubA.map _) (fun a _ => Nat.zero_le a)
  have hstep4 : ((A.rowKeys.filter (fun k => decide (k ∈ B.rowKeys))).map (fun k =>
      (rowSlice B.intervals B.rowPtr (B.rowKeys.indexOf k)).length)).sum ≤
      B.numIntervals := by
    rw [← slice_lengths_sum B hB]
    exact List.Sublist.sum_le_sum (hsubB.map _) (fun a _ => Nat.zero_le a)
  omega

lemma fillPhase_length (A B : Mesh) (matched : List (RowKey × Nat × Nat))
    (cap : Nat) (hcap : (rowCounts A B matched).sum ≤ cap) :
    (fillPhase A B matched (csrScan (rowCounts A B matched)) cap).length = cap := by
  rw [fillPhase_eq A B matched cap hcap]
  rw [List.length_append, List.length_drop, List.length_replicate]
  have hfl : ((matched.map (fun m => rowEmitOf A B m.2.1 m.2.2)).flatten).length =
      (rowCounts A B matched).sum := by
    rw [rowCounts_eq_lengths, List.length_flatten]
  rw [hfl]
  omega

/-- On a well-formed mesh a region transfer is the identity on logical
content (for `num_rows > 0` the three arrays are copied verbatim; a
well-formed empty mesh is already the canonical empty mesh). -/
lemma meshTo_eq_of_wf (M : Mesh) (h : wf M) : meshTo M = M := by
  unfold meshTo
  by_cases h0 : M.numRows = 0
  · rw [if_pos h0, wf_empty_of_numRows_zero M h h0]
  · rw [if_neg h0]

/-! ### The claims -/

/-- C1: the spec claims `(x,y,z) ∈ C ⇔ (x,y,z) ∈ A ∧ (x,y,z) ∈ B` for
`C = intersect_meshes(A, B)` on I1–I4 inputs.  The code violates this: the
`intersection_compact_row_ptr` kernel never writes the final `row_ptr`
entry (its inner loop searches for the `final_num_rows`-th kept row, which
does not exist), so that entry keeps its zero-initialised value and the
kept rows' intervals become unreachable through `row_ptr`.  At the input
below — both meshes well formed, rows `(0,0)` overlapping and rows `(1,0)`
disjoint, so the partial-compaction path runs — the cell `(0,0,0)` lies in
both inputs but not in the result. -/
theorem C1_cellwise_intersection_fails :
    wf (⟨[⟨0, 0⟩, ⟨1, 0⟩], [0, 1, 2], [⟨0, 1⟩, ⟨0, 1⟩]⟩ : Mesh) ∧
    wf (⟨[⟨0, 0⟩, ⟨1, 0⟩], [0, 1, 2], [⟨0, 1⟩, ⟨5, 6⟩]⟩ : Mesh) ∧
    memB ⟨[⟨0, 0⟩, ⟨1, 0⟩], [0, 1, 2], [⟨0, 1⟩, ⟨0, 1⟩]⟩ 0 0 0 = true ∧
    memB ⟨[⟨0, 0⟩, ⟨1, 0⟩], [0, 1, 2], [⟨0, 1⟩, ⟨5, 6⟩]⟩ 0 0 0 = true ∧
    memB (intersectMeshes ⟨[⟨0, 0⟩, ⟨1, 0⟩], [0, 1, 2], [⟨0, 1⟩, ⟨0, 1⟩]⟩
      ⟨[⟨0, 0⟩, ⟨1, 0⟩], [0, 1, 2], [⟨0, 1⟩, ⟨5, 6⟩]⟩) 0 0 0 = false := by
  decide

/-- C2: the spec claims the result satisfies I1–I4, in particular
`row_ptr[num_rows] = num_intervals`, and that the compacted `row_ptr`
entries equal the pre-compaction `row_ptr_out` values.  The code violates
I2 on the partial-compaction path: at the input below the compacted mesh
has one row and one interval but `row_ptr = [0, 0]` — the sentinel entry
was never written by `intersection_compact_row_ptr` and keeps its
zero-initialised value, so `row_ptr[num_rows] = 0 ≠ 1 = num_intervals`
(and I4 fails too: the surviving row reads as empty). -/
theorem C2_output_invariants_fail :
    wf (⟨[⟨0, 0⟩, ⟨1, 0⟩], [0, 1, 2], [⟨0, 2⟩, ⟨0, 2⟩]⟩ : Mesh) ∧
    wf (⟨[⟨0, 0⟩, ⟨1, 0⟩], [0, 1, 2], [⟨0, 2⟩, ⟨10, 12⟩]⟩ : Mesh) ∧
    intersectMeshes ⟨[⟨0, 0⟩, ⟨1, 0⟩], [0, 1, 2], [⟨0, 2⟩, ⟨0, 2⟩]⟩
      ⟨[⟨0, 0⟩, ⟨1, 0⟩], [0, 1, 2], [⟨0, 2⟩, ⟨10, 12⟩]⟩ =
      ⟨[⟨0, 0⟩], [0, 0], [⟨0, 2⟩]⟩ ∧
    ¬ wf (⟨[⟨0, 0⟩], [0, 0], [⟨0, 2⟩]⟩ : Mesh) := by
  decide

/-- C3: the two-pointer merge on two I3 runs returns `|C|`; the emitted
sequence is exactly `C = { a ∩ b | a ∈ A, b ∈ B, a ∩ b ≠ ∅ }` (third
conjunct) in ascending begin order (second conjunct: the output is itself
an I3 run, so begins strictly increase); COUNT mode and EMIT mode agree
(first conjunct); and the traversal advances the side whose interval ends
first, both on a tie (last three conjuncts). -/
theorem C3_row_merge_correct (as bs : List Interval)
    (ha : IntervalRun as) (hb : IntervalRun bs) :
    rowIntersectionCount as bs = (rowIntersectionEmit as bs).length ∧
    IntervalRun (rowIntersectionEmit as bs) ∧
    (∀ c, c ∈ rowIntersectionEmit as bs ↔
      ∃ a ∈ as, ∃ b ∈ bs, interBegin a b < interEnd a b ∧ c = interOf a b) ∧
    (∀ (a b : Interval) (as2 bs2 : List Interval), a.hi < b.hi →
      rowIntersectionEmit (a :: as2) (b :: bs2) =
        (if interBegin a b < interEnd a b then [interOf a b] else []) ++
          rowIntersectionEmit as2 (b :: bs2)) ∧
    (∀ (a b : Interval) (as2 bs2 : List Interval), b.hi < a.hi →
      rowIntersectionEmit (a :: as2) (b :: bs2) =
        (if interBegin a b < interEnd a b then [interOf a b] else []) ++
          rowIntersectionEmit (a :: as2) bs2) ∧
    (∀ (a b : Interval) (as2 bs2 : List Interval), a.hi = b.hi →
      rowIntersectionEmit (a :: as2) (b :: bs2) =
        (if interBegin a b < interEnd a b then [interOf a b] else []) ++
          rowIntersectionEmit as2 bs2) :=
  ⟨count_eq_emit_length as bs,
   emit_run (as.length + bs.length) as bs (le_refl _) ha hb,
   fun c => emit_mem_iff (as.length + bs.length) as bs (le_refl _) ha hb c,
   fun a b as2 bs2 h => emit_step_lt a b as2 bs2 h,
   fun a b as2 bs2 h => emit_step_gt a b as2 bs2 h,
   fun a b as2 bs2 h => emit_step_eq a b as2 bs2 h⟩

/-- Witness for C3 at the spec scenario S3 row. -/
theorem C3_row_merge_correct_witness :
    IntervalRun [⟨0, 5⟩, ⟨10, 15⟩, ⟨20, 25⟩] ∧
    IntervalRun [⟨3, 8⟩, ⟨12, 18⟩, ⟨22, 28⟩] ∧
    rowIntersectionCount [⟨0, 5⟩, ⟨10, 15⟩, ⟨20, 25⟩] [⟨3, 8⟩, ⟨12, 18⟩, ⟨22, 28⟩] =
      (rowIntersectionEmit [⟨0, 5⟩, ⟨10, 15⟩, ⟨20, 25⟩]
        [⟨3, 8⟩, ⟨12, 18⟩, ⟨22, 28⟩]).length :=
  ⟨by decide, by decide,
   (C3_row_merge_correct _ _ (by decide) (by decide)).1⟩

/-- C4: intersecting a well-formed mesh with itself returns a structurally
identical mesh: same row keys, same `row_ptr`, same intervals (hence also
the same cells). -/
theorem C4_intersect_idempotent (A : Mesh) (h : wf A) :
    intersectMeshes A A = A :=
  intersect_self_eq A h

/-- Witness for C4 at a three-row mesh with two intervals per row. -/
theorem C4_intersect_idempotent_witness :
    wf (⟨[⟨0, 0⟩, ⟨1, 0⟩, ⟨2, 0⟩], [0, 2, 4, 6],
      [⟨0, 10⟩, ⟨20, 30⟩, ⟨5, 15⟩, ⟨25, 35⟩, ⟨10, 20⟩, ⟨30, 40⟩]⟩ : Mesh) ∧
    intersectMeshes
      ⟨[⟨0, 0⟩, ⟨1, 0⟩, ⟨2, 0⟩], [0, 2, 4, 6],
        [⟨0, 10⟩, ⟨20, 30⟩, ⟨5, 15⟩, ⟨25, 35⟩, ⟨10, 20⟩, ⟨30, 40⟩]⟩
      ⟨[⟨0, 0⟩, ⟨1, 0⟩, ⟨2, 0⟩], [0, 2, 4, 6],
        [⟨0, 10⟩, ⟨20, 30⟩, ⟨5, 15⟩, ⟨25, 35⟩, ⟨10, 20⟩, ⟨30, 40⟩]⟩ =
      ⟨[⟨0, 0⟩, ⟨1, 0⟩, ⟨2, 0⟩], [0, 2, 4, 6],
        [⟨0, 10⟩, ⟨20, 30⟩, ⟨5, 15⟩, ⟨25, 35⟩, ⟨10, 20⟩, ⟨30, 40⟩]⟩ :=
  ⟨by decide, C4_intersect_idempotent _ (by decide)⟩

/-- C5: on well-formed inputs the intersection is structurally commutative
— identical row keys, `row_ptr` and intervals — although the engine drives
the parallel loop from the smaller side and restores the A/B roles through
`small_is_a`. -/
theorem C5_intersect_commutative (A B : Mesh) (hA : wf A) (hB : wf B) :
    intersectMeshes A B = intersectMeshes B A :=
  intersect_comm_eq A B hA hB

/-- Witness for C5 with inputs of different row counts, so that the two
calls drive the loop from different argument positions. -/
theorem C5_intersect_commutative_witness :
    wf (⟨[⟨0, 0⟩], [0, 1], [⟨0, 10⟩]⟩ : Mesh) ∧
    wf (⟨[⟨0, 0⟩, ⟨1, 0⟩], [0, 1, 2], [⟨5, 15⟩, ⟨0, 10⟩]⟩ : Mesh) ∧
    intersectMeshes ⟨[⟨0, 0⟩], [0, 1], [⟨0, 10⟩]⟩
        ⟨[⟨0, 0⟩, ⟨1, 0⟩], [0, 1, 2], [⟨5, 15⟩, ⟨0, 10⟩]⟩ =
      intersectMeshes ⟨[⟨0, 0⟩, ⟨1, 0⟩], [0, 1, 2], [⟨5, 15⟩, ⟨0, 10⟩]⟩
        ⟨[⟨0, 0⟩], [0, 1], [⟨0, 10⟩]⟩ :=
  ⟨by decide, by decide, C5_intersect_commutative _ _ (by decide) (by decide)⟩

/-- C6: intersecting with the empty mesh on either side yields the empty
mesh; whenever either input has zero rows the engine returns the empty
mesh through its first branch, before any binary search or kernel phase
(the remaining phases appear only in the other branch of the definition). -/
theorem C6_absorption :
    (∀ A : Mesh, intersectMeshes A Mesh.empty = Mesh.empty) ∧
    (∀ A : Mesh, intersectMeshes Mesh.empty A = Mesh.empty) ∧
    (∀ A B : Mesh, A.numRows = 0 ∨ B.numRows = 0 →
      intersectMeshes A B = Mesh.empty) := by
  refine ⟨fun A => ?_, fun A => ?_, fun A B h => ?_⟩
  · unfold intersectMeshes
    rw [if_pos (show A.numRows = 0 ∨ Mesh.empty.numRows = 0 from Or.inr rfl)]
  · unfold intersectMeshes
    rw [if_pos (show Mesh.empty.numRows = 0 ∨ A.numRows = 0 from Or.inl rfl)]
  · unfold intersectMeshes
    rw [if_pos h]

/-- Witness for C6 at a concrete non-empty mesh. -/
theorem C6_absorption_witness :
    intersectMeshes ⟨[⟨0, 0⟩], [0, 1], [⟨0, 5⟩]⟩ Mesh.empty = Mesh.empty :=
  C6_absorption.2.2 ⟨[⟨0, 0⟩], [0, 1], [⟨0, 5⟩]⟩ Mesh.empty (by decide)

/-- C7: a region transfer copies the three arrays verbatim (for an empty
mesh it returns the canonical empty mesh, which on a well-formed input is
the mesh itself), so each single transfer is the identity on logical
content, the round trip of two transfers is the identity, and transfers
preserve I1–I4.  The memory region is not part of the logical content, so
both `mesh_to` applications of the round trip have the same model. -/
theorem C7_roundtrip (M : Mesh) (h : wf M) :
    meshTo (meshTo M) = M ∧ meshTo M = M ∧ wf (meshTo M) := by
  have h1 := meshTo_eq_of_wf M h
  refine ⟨?_, h1, ?_⟩
  · rw [h1, h1]
  · rw [h1]
    exact h

/-- Witness for C7 at a concrete two-row mesh. -/
theorem C7_roundtrip_witness :
    wf (⟨[⟨0, 0⟩, ⟨0, 1⟩], [0, 1, 3], [⟨0, 5⟩, ⟨2, 4⟩, ⟨7, 9⟩]⟩ : Mesh) ∧
    meshTo (meshTo ⟨[⟨0, 0⟩, ⟨0, 1⟩], [0, 1, 3], [⟨0, 5⟩, ⟨2, 4⟩, ⟨7, 9⟩]⟩) =
      ⟨[⟨0, 0⟩, ⟨0, 1⟩], [0, 1, 3], [⟨0, 5⟩, ⟨2, 4⟩, ⟨7, 9⟩]⟩ :=
  ⟨by decide, (C7_roundtrip _ (by decide)).1⟩

/-- C8: the merge loop only compares and copies coordinates — every bound
of every emitted interval is one of the input bounds (first conjunct) — so
on inputs whose bounds lie in the signed 32-bit range all outputs lie in
that range and no overflow can occur (second conjunct); at the extreme
input `[MAX-2, MAX-1), [MAX-1, MAX)` from the spec the intersection is
exact (third conjunct, `MAX = 2^31 - 1 = 2147483647`). -/
theorem C8_full_signed_range :
    (∀ (as bs : List Interval), ∀ c ∈ rowIntersectionEmit as bs,
      (c.lo ∈ as.map Interval.lo ∨ c.lo ∈ bs.map Interval.lo) ∧
      (c.hi ∈ as.map Interval.hi ∨ c.hi ∈ bs.map Interval.hi)) ∧
    (∀ (as bs : List Interval),
      (∀ iv ∈ as ++ bs, -(2 ^ 31) ≤ iv.lo ∧ iv.lo < 2 ^ 31 ∧
        -(2 ^ 31) ≤ iv.hi ∧ iv.hi < 2 ^ 31) →
      ∀ c ∈ rowIntersectionEmit as bs, -(2 ^ 31) ≤ c.lo ∧ c.lo < 2 ^ 31 ∧
        -(2 ^ 31) ≤ c.hi ∧ c.hi < 2 ^ 31) ∧
    rowIntersectionEmit [⟨2147483645, 2147483646⟩, ⟨2147483646, 2147483647⟩]
        [⟨2147483645, 2147483646⟩, ⟨2147483646, 2147483647⟩] =
      [⟨2147483645, 2147483646⟩, ⟨2147483646, 2147483647⟩] := by
  refine ⟨fun as bs c hc => emit_bounds as bs c hc, ?_, by decide⟩
  intro as bs hin c hc
  obtain ⟨hlo, hhi⟩ := emit_bounds as bs c hc
  constructor
  · rcases hlo with h | h <;>
      obtain ⟨iv, hiv, hivlo⟩ := List.mem_map.1 h
    · have := hin iv (List.mem_append.2 (Or.inl hiv))
      omega
    · have := hin iv (List.mem_append.2 (Or.inr hiv))
      omega
  constructor
  · rcases hlo with h | h <;>
      obtain ⟨iv, hiv, hivlo⟩ := List.mem_map.1 h
    · have := hin iv (List.mem_append.2 (Or.inl hiv))
      omega
    · have := hin iv (List.mem_append.2 (Or.inr hiv))
      omega
  · rcases hhi with h | h <;>
      obtain ⟨iv, hiv, hivhi⟩ := List.mem_map.1 h
    · have := hin iv (List.mem_append.2 (Or.inl hiv))
      constructor
      · omega
      · omega
    · have := hin iv (List.mem_append.2 (Or.inr hiv))
      constructor
      · omega
      · omega

/-- Witness for C8 discharging the range hypothesis at a concrete input at
the signed boundary. -/
theorem C8_full_signed_range_witness :
    (∀ iv ∈ ([⟨2147483645, 2147483647⟩] ++ [⟨-2147483648, 2147483646⟩] :
        List Interval), -(2 ^ 31) ≤ iv.lo ∧ iv.lo < 2 ^ 31 ∧
        -(2 ^ 31) ≤ iv.hi ∧ iv.hi < 2 ^ 31) ∧
    (∀ c ∈ rowIntersectionEmit [⟨2147483645, 2147483647⟩]
        [⟨-2147483648, 2147483646⟩], -(2 ^ 31) ≤ c.lo ∧ c.lo < 2 ^ 31 ∧
        -(2 ^ 31) ≤ c.hi ∧ c.hi < 2 ^ 31) :=
  ⟨by decide,
   C8_full_signed_range.2.1 [⟨2147483645, 2147483647⟩]
     [⟨-2147483648, 2147483646⟩] (by decide)⟩

/-- C9: two valid non-empty meshes with disjoint cell sets produce the
well-formed canonical empty mesh (`num_rows = num_intervals = 0`): either
no row key matches (the `R == 0` return) or every matched row counts zero
intervals (the `total == 0` return); both returns precede the FILL and
COMPACT phases in the definition. -/
theorem C9_disjoint_inputs_empty_result (A B : Mesh) (hA : wf A) (hB : wf B)
    (hApos : 0 < A.numRows) (hBpos : 0 < B.numRows)
    (hdisj : ∀ x y z : Int, ¬(memB A x y z = true ∧ memB B x y z = true)) :
    intersectMeshes A B = Mesh.empty ∧ wf Mesh.empty :=
  ⟨intersect_disjoint_eq_empty A B hA hB hdisj, by decide⟩

/-- Witness for C9: two single-row meshes with different row keys. -/
theorem C9_disjoint_inputs_empty_result_witness :
    intersectMeshes ⟨[⟨0, 0⟩], [0, 1], [⟨0, 5⟩]⟩
      ⟨[⟨1, 0⟩], [0, 1], [⟨0, 5⟩]⟩ = Mesh.empty ∧ wf Mesh.empty := by
  apply C9_disjoint_inputs_empty_result _ _ (by decide) (by decide)
    (by decide) (by decide)
  intro x y z hc
  obtain ⟨ha, hb⟩ := hc
  rw [memB_iff] at ha hb
  obtain ⟨r, hr, hk, -⟩ := ha
  obtain ⟨s, hs, hk2, -⟩ := hb
  have hr0 : r = 0 := by
    simp only [Mesh.numRows, List.length_cons, List.length_nil] at hr
    omega
  have hs0 : s = 0 := by
    simp only [Mesh.numRows, List.length_cons, List.length_nil] at hs
    omega
  subst hr0
  subst hs0
  simp only [List.getD_cons_zero] at hk hk2
  have h1 : y = 0 := congrArg RowKey.y hk.symm
  have h2 : y = 1 := congrArg RowKey.y hk2.symm
  omega

/-- C10: each merge call emits at most `|A_row| + |B_row| - 1` intervals
(first conjunct); over all matched rows the total output size is at most
`A.num_intervals + B.num_intervals` (second conjunct), which is exactly
the capacity `allocate_mesh_device` reserves for the output interval view;
consequently the FILL phase stays within the allocated buffer: the filled
array still has exactly that capacity (third conjunct — a write past the
end would have lengthened it in this model). -/
theorem C10_output_fits_allocation :
    (∀ as bs : List Interval,
      rowIntersectionCount as bs ≤ as.length + bs.length - 1) ∧
    (∀ A B : Mesh, wf A → wf B →
      (rowCounts A B (rowMap A B)).sum ≤ A.numIntervals + B.numIntervals) ∧
    (∀ A B : Mesh, wf A → wf B →
      (fillPhase A B (rowMap A B) (csrScan (rowCounts A B (rowMap A B)))
        (A.numIntervals + B.numIntervals)).length =
        A.numIntervals + B.numIntervals) :=
  ⟨fun as bs => count_le as bs,
   fun A B hA hB => total_le_capacity A B hA hB,
   fun A B hA hB => fillPhase_length A B (rowMap A B) _
     (total_le_capacity A B hA hB)⟩

/-- Witness for C10 at the concrete meshes of scenario S2. -/
theorem C10_output_fits_allocation_witness :
    wf (⟨[⟨0, 0⟩], [0, 1], [⟨0, 10⟩]⟩ : Mesh) ∧
    wf (⟨[⟨0, 0⟩], [0, 1], [⟨5, 15⟩]⟩ : Mesh) ∧
    (rowCounts ⟨[⟨0, 0⟩], [0, 1], [⟨0, 10⟩]⟩ ⟨[⟨0, 0⟩], [0, 1], [⟨5, 15⟩]⟩
      (rowMap ⟨[⟨0, 0⟩], [0, 1], [⟨0, 10⟩]⟩ ⟨[⟨0, 0⟩], [0, 1], [⟨5, 15⟩]⟩)).sum ≤
      (⟨[⟨0, 0⟩], [0, 1], [⟨0, 10⟩]⟩ : Mesh).numIntervals +
      (⟨[⟨0, 0⟩], [0, 1], [⟨5, 15⟩]⟩ : Mesh).numIntervals :=
  ⟨by decide, by decide,
   C10_output_fits_allocation.2.1 _ _ (by decide) (by decide)⟩

end Subsetix
